import Mathlib

/-!
Verification of the SS.LV thread scraper / Pipedrive reconciliation program
(`process.js`, "all messages" variant).  The JavaScript source is embedded
shallowly: strings are `List Char`, the specific regular expressions used by
the scraper are implemented as deterministic scanners (each pattern in the
source backtracks trivially, which is proved on paper and reflected in the
definitions), and the remote record store is an explicit state threaded
through the reconciliation engine together with a trace of the gateway
operations it issues.
-/

set_option maxHeartbeats 1000000
set_option maxRecDepth 100000

namespace Cartom

/-- Shorthand: the character list of a string literal. -/
def S (s : String) : List Char := s.data

/-- The JavaScript whitespace class used by `trim` and `\s` (the members that
can actually occur in this code path; JS additionally treats a few rare
Unicode space code points the same way). -/
def jsWs (c : Char) : Bool :=
  c = ' ' || c = '\t' || c = '\n' || c = '\r' || c = '\x0c' || c = '\x0b' ||
  c = ' ' || c = '﻿'

/-- `String.prototype.trimStart`. -/
def jsTrimLeft : List Char → List Char
  | [] => []
  | c :: cs => if jsWs c then jsTrimLeft cs else c :: cs

/-- `String.prototype.trimEnd`. -/
def jsTrimRight (s : List Char) : List Char :=
  (jsTrimLeft s.reverse).reverse

/-- `String.prototype.trim`. -/
def jsTrim (s : List Char) : List Char :=
  jsTrimRight (jsTrimLeft s)

/-- `String.prototype.toLowerCase`, restricted to the alphabets this program
actually compares: ASCII plus the Latvian uppercase letters. -/
def jsLowerChar (c : Char) : Char :=
  if c.isUpper then c.toLower
  else (([('Ā', 'ā'), ('Č', 'č'), ('Ē', 'ē'), ('Ģ', 'ģ'), ('Ī', 'ī'),
          ('Ķ', 'ķ'), ('Ļ', 'ļ'), ('Ņ', 'ņ'), ('Š', 'š'), ('Ū', 'ū'),
          ('Ž', 'ž')] : List (Char × Char)).lookup c).getD c

/-- Character-wise `toLowerCase` on a JS string. -/
def jsLower (s : List Char) : List Char := s.map jsLowerChar

/-- `String.prototype.includes`: substring containment. -/
def containsSub : List Char → List Char → Bool
  | hay, needle =>
    if needle.isPrefixOf hay then true
    else
      match hay with
      | [] => false
      | _ :: t => containsSub t needle

/-- Tail-recursive worker for `indexOfI`. -/
def indexOfIAux (needle : List Char) : List Char → Int → Int
  | hay, i =>
    if needle.isPrefixOf hay then i
    else
      match hay with
      | [] => -1
      | _ :: t => indexOfIAux needle t (i + 1)

/-- First index at which `needle` occurs in `hay`, following
`String.prototype.indexOf` (`-1` when absent). -/
def indexOfI (hay needle : List Char) : Int :=
  indexOfIAux needle hay 0

/-- `name.split(' ')[0]`: the segment before the first space character
(the whole string when it has no space). -/
def firstTok (s : List Char) : List Char := s.takeWhile (· ≠ ' ')

/-- JS `string.length` (UTF-16 code units). -/
def utf16Len (s : List Char) : Nat :=
  s.foldl (fun acc c => acc + (if c.toNat < 0x10000 then 1 else 2)) 0

/-- Numeric value of a decimal digit string, as `parseInt` computes it on the
`\d+` captures this program produces. -/
def digitsVal (s : List Char) : Nat :=
  s.foldl (fun acc c => acc * 10 + (c.toNat - '0'.toNat)) 0

/-! ## Data model -/

/-- Direction of a chat message. -/
inductive Direction
  | sent
  | received
deriving DecidableEq, Repr

/-- A parsed chat message (`fetchAllMessages` output element). -/
structure Message where
  id : List Char
  text : List Char
  time : List Char
  date : List Char
  direction : Direction
deriving DecidableEq, Repr

/-- Numeric sort key of a message, `parseInt(m.id)`. -/
def idNum (m : Message) : Nat := digitsVal m.id

/-! ## Note formatter (`formatNoteHtml`) -/

/-- `formatNoteHtml`: renders one message as the HTML note fragment, exactly
as the template literal in the source (including the final `.trim()`). -/
def formatNoteHtml (m : Message) : List Char :=
  let isSent := m.direction = Direction.sent
  let borderColor := if isSent then S "#2196F3" else S "#4CAF50"
  let emoji := if isSent then S "🔵" else S "🟢"
  let label := if isSent then S "Sent" else S "Received"
  jsTrim
    (S "\n<div style=\"border-left: 4px solid " ++ borderColor ++
     S "; padding: 6px 12px; margin: 2px 0; font-family: Arial, sans-serif;\">\n  <div style=\"font-size: 11px; color: #555; margin-bottom: 4px;\">\n    " ++
     emoji ++ S " <b>" ++ label ++
     S "</b> &nbsp;|&nbsp; <b>[" ++ m.time ++ S " &nbsp; " ++ m.date ++
     S "]</b>\n  </div>\n  <div style=\"font-size: 13px; color: #222;\">\n    " ++
     m.text ++ S "\n  </div>\n</div>")

/-! ## Regex scanners

Each regular expression used by `fetchAllMessages` backtracks trivially (its
character classes are bounded by the literal that follows), so each one is
implemented as a deterministic scanner.  A matcher returns the captures plus
the unconsumed rest of the input; the match length is recovered from the
lengths. -/

/-- Match a literal string, returning the rest of the input. -/
def lit : List Char → List Char → Option (List Char)
  | [], s => some s
  | _, [] => none
  | p :: ps, c :: cs => if c = p then lit ps cs else none

/-- Tail-recursive worker for `upTo` (accumulator reversed on exit). -/
def upToAux (c : Char) : List Char → List Char → Option (List Char × List Char)
  | _, [] => none
  | acc, x :: xs =>
    if x = c then some (acc.reverse, xs) else upToAux c (x :: acc) xs

/-- `[^c]*c`: the characters before the first occurrence of `c`, and the rest
after that occurrence; fails when `c` does not occur. -/
def upTo (c : Char) (s : List Char) : Option (List Char × List Char) :=
  upToAux c [] s

/-- `\s*`: split off the maximal whitespace run. -/
def splitWs (s : List Char) : List Char × List Char :=
  (s.takeWhile jsWs, s.dropWhile jsWs)

/-- `\d+`: a non-empty maximal digit run. -/
def digits1 (s : List Char) : Option (List Char × List Char) :=
  let d := s.takeWhile Char.isDigit
  if d.isEmpty then none else some (d, s.drop d.length)

/-- A date-header match: the full matched text, the raw capture, and the
match offset within the chat region. -/
structure DateM where
  full : List Char
  cap : List Char
  pos : Nat
deriving DecidableEq, Repr

/-- Matcher for `/<div class="td15"[^>]*>\s*([^<]+)\s*<\/div>/` at the start
of the input: after the opening tag the pattern commits to the maximal run of
non-`<` characters, and succeeds exactly when `</div>` follows that run; the
first (greedy) successful capture is the run minus the leading whitespace the
`\s*` absorbs — except that when the run is all whitespace the `\s*` backs
off so that `[^<]+` keeps its last character. -/
def matchDate (s : List Char) : Option ((List Char × List Char) × List Char) :=
  match lit (S "<div class=\"td15\"") s with
  | none => none
  | some s1 =>
    match upTo '>' s1 with
    | none => none
    | some (attrs, s2) =>
      let run := s2.takeWhile (· ≠ '<')
      if run.isEmpty then none
      else
        match lit (S "</div>") (s2.drop run.length) with
        | none => none
        | some s3 =>
          let ws := (run.takeWhile jsWs).length
          let cap := run.drop (min ws (run.length - 1))
          some ((S "<div class=\"td15\"" ++ attrs ++ ['>'] ++ run ++ S "</div>",
                 cap), s3)

/-- Matcher for the inline-script directive
`/<script>_out_text\("([^"]*)",\s*"mail_content_(\d+)"\);<\/script>/`:
returns `(text, id)`. -/
def matchScript (s : List Char) :
    Option ((List Char × List Char) × List Char) :=
  match lit (S "<script>_out_text(\"") s with
  | none => none
  | some s1 =>
    match upTo '"' s1 with
    | none => none
    | some (txt, s2) =>
      match lit (S ",") s2 with
      | none => none
      | some s3 =>
        match lit (S "\"mail_content_") (splitWs s3).2 with
        | none => none
        | some s4 =>
          match digits1 s4 with
          | none => none
          | some (idchars, s5) =>
            match lit (S "\");</script>") s5 with
            | none => none
            | some s6 => some ((txt, idchars), s6)

/-- Tail of the message-block pattern,
`<td class="?td15"?[^>]*>([^<]+)<\/td>`: returns the time capture. -/
def matchTdTail (s : List Char) : Option (List Char × List Char) :=
  match lit (S "<td class=") s with
  | none => none
  | some s1 =>
    let s2? : Option (List Char) :=
      match s1 with
      | '"' :: r => lit (S "td15") r
      | _ => lit (S "td15") s1
    match s2? with
    | none => none
    | some s2 =>
      let s3 := match s2 with
        | '"' :: r => r
        | _ => s2
      match upTo '>' s3 with
      | none => none
      | some (_, s4) =>
        let run := s4.takeWhile (· ≠ '<')
        if run.isEmpty then none
        else
          match lit (S "</td>") (s4.drop run.length) with
          | none => none
          | some s5 => some (run, s5)

/-- Tail-recursive worker for `findTdSplit`. -/
def findTdSplitAux : List Char → List Char →
    Option (List Char × (List Char × List Char))
  | acc, [] => (matchTdTail []).map (fun r => (acc.reverse, r))
  | acc, c :: cs =>
    match matchTdTail (c :: cs) with
    | some r => some (acc.reverse, r)
    | none => findTdSplitAux (c :: acc) cs

/-- The lazy group `([\s\S]*?)` before the `<td ...>` tail: the shortest
split of the input whose remainder matches `matchTdTail`. -/
def findTdSplit (s : List Char) :
    Option (List Char × (List Char × List Char)) :=
  findTdSplitAux [] s

/-- A message block match: id capture, block body capture, raw time capture,
and the match offset. -/
structure Block where
  id : List Char
  body : List Char
  time : List Char
  pos : Nat
deriving DecidableEq, Repr

/-- Matcher for the message-block pattern
`/<a name="(\d+)"><\/a>\s*<div[^>]*>([\s\S]*?)<td class="?td15"?[^>]*>([^<]+)<\/td>/`. -/
def matchBlock (s : List Char) :
    Option ((List Char × List Char × List Char) × List Char) :=
  match lit (S "<a name=\"") s with
  | none => none
  | some s1 =>
    match digits1 s1 with
    | none => none
    | some (idchars, s2) =>
      match lit (S "\"></a>") s2 with
      | none => none
      | some s3 =>
        match lit (S "<div") (splitWs s3).2 with
        | none => none
        | some s4 =>
          match upTo '>' s4 with
          | none => none
          | some (_, s5) =>
            match findTdSplit s5 with
            | none => none
            | some (body, time, rest) => some ((idchars, body, time), rest)

/-- `matchAll` over a matcher that reports captures and the unconsumed rest:
scan left to right, restarting after each match (by one character when the
match is empty, as JS regex iteration does).  The fuel argument only bounds
the recursion; it never runs out when started at the input's length, because
every step consumes at least one character. -/
def scanAllF (tryM : List Char → Option (α × List Char)) :
    Nat → List Char → Nat → List (α × Nat)
  | 0, _, _ => []
  | _ + 1, [], _ => []
  | fuel + 1, c :: tail, i =>
    match tryM (c :: tail) with
    | some (a, rest) =>
      let step := max ((c :: tail).length - rest.length) 1
      (a, i) :: scanAllF tryM fuel ((c :: tail).drop step) (i + step)
    | none => scanAllF tryM fuel tail (i + 1)

/-- `matchAll` from offset `i`, with enough fuel for the whole input. -/
def scanAll (tryM : List Char → Option (α × List Char))
    (s : List Char) (i : Nat) : List (α × Nat) :=
  scanAllF tryM s.length s i

/-- All date-header matches in the chat region, with offsets. -/
def scanDates (chat : List Char) : List DateM :=
  (scanAll matchDate chat 0).map (fun x => ⟨x.1.1, x.1.2, x.2⟩)

/-- All `(messageId, messageText)` pairs from the inline-script directives,
in match order. -/
def scanScripts (chat : List Char) : List (List Char × List Char) :=
  (scanAll matchScript chat 0).map (fun x => (x.1.2, x.1.1))

/-- All message-block matches in the chat region, with offsets. -/
def scanBlocks (chat : List Char) : List Block :=
  (scanAll matchBlock chat 0).map (fun x => ⟨x.1.1, x.1.2.1, x.1.2.2, x.2⟩)

/-- Lookup in an insertion-ordered association list where later insertions
overwrite earlier ones (`Map.set` semantics). -/
def lookupLastC (l : List (List Char × List Char)) (k : List Char) :
    Option (List Char) :=
  l.foldl (fun acc p => if p.1 = k then some p.2 else acc) none

/-! ## The main scan loop of `fetchAllMessages` -/

/-- The date-pointer advance: consume the leading date matches whose
`indexOf`-recomputed offset (first occurrence of the full matched text in the
chat region) precedes the current block's offset, updating the current date
to the trimmed capture of the last one consumed.  An empty current date
stands for JS `null`/`''` (both falsy). -/
def advanceDates (chat : List Char) (blockPos : Nat) :
    List DateM → List Char → List DateM × List Char
  | [], cur => ([], cur)
  | d :: rest, cur =>
    if indexOfI chat d.full < (blockPos : Int) then
      advanceDates chat blockPos rest (jsTrim d.cap)
    else (d :: rest, cur)

/-- The body of the block loop: date-pointer advance, text lookup by id with
skip-and-warn on a missing or empty entry, direction detection by the
`#d3f0f8` background marker.  Returns the messages in scan order together
with the ids warned about. -/
def processBlocks (chat : List Char) (texts : List (List Char × List Char)) :
    List Block → List DateM → List Char → List Message × List (List Char)
  | [], _, _ => ([], [])
  | b :: bs, dates, cur =>
    let dc := advanceDates chat b.pos dates cur
    let text := (lookupLastC texts b.id).getD []
    if text.isEmpty then
      let r := processBlocks chat texts bs dc.1 dc.2
      (r.1, b.id :: r.2)
    else
      let m : Message :=
        { id := b.id, text := text, time := jsTrim b.time,
          date := if dc.2.isEmpty then S "Unknown date" else dc.2,
          direction := if containsSub b.body (S "#d3f0f8")
                       then Direction.sent else Direction.received }
      let r := processBlocks chat texts bs dc.1 dc.2
      (m :: r.1, r.2)

/-- Stable insertion of a message into an already-sorted list: it goes after
every element whose key is less than or equal to its own, which is where a
stable sort with the comparator `parseInt(a.id) - parseInt(b.id)` puts it. -/
def insMsg (acc : List Message) (m : Message) : List Message :=
  match acc with
  | [] => [m]
  | x :: xs => if idNum x ≤ idNum m then x :: insMsg xs m else m :: x :: xs

/-- The final `messages.sort((a, b) => parseInt(a.id) - parseInt(b.id))`:
a stable sort ascending by numeric id. -/
def sortMessages (l : List Message) : List Message :=
  l.foldl insMsg []

/-! ## The parser (`fetchAllMessages`, pure part) -/

/-- Parse failures of `fetchAllMessages` (its Error throws other than the
session-expiry one, which belongs to the fetch step). -/
inductive ParseErr
  | noChatDiv
  | chatEmpty
deriving DecidableEq, Repr

/-- Tail of the chat-container pattern:
`<\/div>\s*<div style="margin-top: 20px;">`. -/
def matchChatTail (s : List Char) : Option (List Char) :=
  match lit (S "</div>") s with
  | none => none
  | some s1 => lit (S "<div style=\"margin-top: 20px;\">") (splitWs s1).2

/-- Tail-recursive worker for `findChatSplit`. -/
def findChatSplitAux : List Char → List Char → Option (List Char)
  | acc, [] => (matchChatTail []).map (fun _ => acc.reverse)
  | acc, c :: cs =>
    match matchChatTail (c :: cs) with
    | some _ => some acc.reverse
    | none => findChatSplitAux (c :: acc) cs

/-- The lazy capture of the chat-container pattern: the shortest split whose
remainder matches `matchChatTail`. -/
def findChatSplit (s : List Char) : Option (List Char) :=
  findChatSplitAux [] s

/-- Chat-container pattern
`/<div id="chat_dv"[^>]*>([\s\S]*?)<\/div>\s*<div style="margin-top: 20px;">/`
at the start of the input: the captured chat region. -/
def matchChatAt (s : List Char) : Option (List Char) :=
  match lit (S "<div id=\"chat_dv\"") s with
  | none => none
  | some s1 =>
    match upTo '>' s1 with
    | none => none
    | some (_, s2) => findChatSplit s2

/-- `html.match(...)`: the first position at which the chat-container
pattern matches, returning the captured chat region. -/
def findChatDiv : List Char → Option (List Char)
  | [] => matchChatAt []
  | c :: t =>
    match matchChatAt (c :: t) with
    | some cap => some cap
    | none => findChatDiv t

/-- The pure part of `fetchAllMessages`: from the page HTML to the sorted
message list and the list of skipped block ids (the warnings). -/
def parseThread (html : List Char) :
    Except ParseErr (List Message × List (List Char)) :=
  match findChatDiv html with
  | none => .error .noChatDiv
  | some chat =>
    if utf16Len chat < 50 then .error .chatEmpty
    else
      let r := processBlocks chat (scanScripts chat) (scanBlocks chat)
                 (scanDates chat) []
      .ok (sortMessages r.1, r.2)

/-! ## The remote record store

The Pipedrive gateway is modelled as an explicit state; every operation the
program issues is recorded in a trace. -/

/-- A contact record. -/
structure Person where
  id : Nat
  name : List Char
deriving DecidableEq, Repr

/-- A deal record, including the two custom attribute writes
(`[sourceChannelKey]: …`, `[sourceCompanyKey]: …`). -/
structure DealRec where
  id : Nat
  personId : Nat
  title : List Char
  channelKey : List Char
  channelOpt : Nat
  companyKey : List Char
  companyOpt : Nat
deriving DecidableEq, Repr

/-- A note record attached to a deal. -/
structure NoteRec where
  dealId : Nat
  content : List Char
deriving DecidableEq, Repr

/-- The remote store: persons in text-search result order, deals and notes in
creation order, the deal-field metadata (`/dealFields`), and the id counter
the server draws fresh ids from. -/
structure RemoteState where
  persons : List Person
  deals : List DealRec
  notes : List NoteRec
  dealFields : List (Nat × List Char)
  nextId : Nat
deriving DecidableEq, Repr

/-- One gateway operation, as issued by the program. -/
inductive GOp
  | getDealFields
  | searchPersons (term : List Char)
  | getDeals (personId : Nat)
  | getNotes (dealId : Nat)
  | createPerson (name : List Char)
  | createDeal (title : List Char)
  | createNote (dealId : Nat) (content : List Char)
deriving DecidableEq, Repr

/-- `GET /persons/{id}/deals?status=all_not_deleted`: the person's deals in
listing order. -/
def dealsOf (st : RemoteState) (pid : Nat) : List DealRec :=
  st.deals.filter (fun d => d.personId = pid)

/-- `GET /notes?deal_id={id}`: the deal's notes in listing order. -/
def notesOf (st : RemoteState) (did : Nat) : List NoteRec :=
  st.notes.filter (fun n => n.dealId = did)

/-- `POST /notes` with `{deal_id, content}`. -/
def addNoteSt (st : RemoteState) (did : Nat) (content : List Char) :
    RemoteState :=
  { st with notes := st.notes ++ [⟨did, content⟩] }

/-- `Map` built from `/dealFields` (`new Map(data.map(f => [f.id, f.key]))`,
later entries overwriting earlier ones), looked up by field id. -/
def lookupFieldKey (l : List (Nat × List Char)) (k : Nat) :
    Option (List Char) :=
  l.foldl (fun acc p => if p.1 = k then some p.2 else acc) none

/-- `getDealFieldKeys` + the falsy check in `main`: both custom field keys
must resolve to non-empty strings. -/
def resolveKeys (st : RemoteState) : Option (List Char × List Char) :=
  match lookupFieldKey st.dealFields 36, lookupFieldKey st.dealFields 49 with
  | some a, some b => if a.isEmpty || b.isEmpty then none else some (a, b)
  | _, _ => none

/-- Modelled from the spec: the record-store gateway's contact text search
(`/persons/search?term=…&fields=name&exact_match=false`, §6 "contact text
search (returns candidate matches …)") — the remote server's code is not
part of this repository.  Modelled as the persons whose full name contains
the search term case-insensitively, in store order. -/
def searchPersons (st : RemoteState) (term : List Char) : List Person :=
  st.persons.filter (fun p => containsSub (jsLower p.name) (jsLower term))

/-- `findPersonByFirstName`: among the search candidates, the first whose
first space-delimited name token equals the query case-insensitively. -/
def findPersonByFirstName (st : RemoteState) (firstName : List Char) :
    Option Person :=
  (searchPersons st firstName).find?
    (fun p => jsLower (firstTok p.name) = jsLower firstName)

/-! ## The reconciliation engine (`main`, steps after parsing) -/

/-- Sender configuration entry (`SENDER_CONFIG` value). -/
structure SenderCfg where
  sourceChannelOptionId : Nat
  sourceCompanyOptionId : Nat
  dealTitleStub : List Char
deriving DecidableEq, Repr

/-- The static `SENDER_CONFIG` map (the `dealTitleStub` field carries the
source's deal-title prefix string). -/
def SENDER_CONFIG : List (List Char × SenderCfg) :=
  [(S "info@cartom.lv", ⟨70, 47, S "SS Cartom"⟩),
   (S "autoplacis@autotev.lv", ⟨68, 50, S "SS AutoTev"⟩),
   (S "sales@cartom.lv", ⟨69, 54, S "SS Current"⟩)]

/-- Result record of a reconciliation run. -/
inductive Action
  | created_new_deal
  | synced_notes_to_existing_deal
deriving DecidableEq, Repr

/-- The values `main` reports on success. -/
structure RunResult where
  personId : Nat
  dealId : Nat
  notesAdded : Nat
  action : Action
deriving DecidableEq, Repr

/-- Reconciliation failures (`throw`s of `main` after parsing). -/
inductive RunError
  | emptyThread
  | configErr
deriving DecidableEq, Repr

/-- The sync loop of step 4: for each message not contained (as a substring)
in any of the notes fetched for the owning deal, append a formatted note.
Returns the new state, the count added, and the notes-created trace. -/
def syncLoop (st : RemoteState) (did : Nat) (existing : List NoteRec) :
    List Message → RemoteState × Nat × List GOp
  | [] => (st, 0, [])
  | m :: ms =>
    if existing.any (fun n => containsSub n.content m.text) then
      syncLoop st did existing ms
    else
      let r := syncLoop (addNoteSt st did (formatNoteHtml m)) did existing ms
      (r.1, r.2.1 + 1, GOp.createNote did (formatNoteHtml m) :: r.2.2)

/-- The owning-deal scan: fetch each deal's notes in listing order; on the
first deal with a note containing the opening message's text, run the sync
loop and stop. -/
def scanDeals (st : RemoteState) (msgs : List Message) (ftext : List Char) :
    List DealRec → RemoteState × Option (Nat × Nat) × List GOp
  | [] => (st, none, [])
  | d :: ds =>
    let ns := notesOf st d.id
    if ns.any (fun n => containsSub n.content ftext) then
      let r := syncLoop st d.id ns msgs
      (r.1, some (d.id, r.2.1), GOp.getNotes d.id :: r.2.2)
    else
      let r := scanDeals st msgs ftext ds
      (r.1, r.2.1, GOp.getNotes d.id :: r.2.2)

/-- The note-append loop of the created-deal path: every message becomes a
note, counted into `notesAdded`. -/
def addAllLoop (st : RemoteState) (did : Nat) :
    List Message → RemoteState × Nat × List GOp
  | [] => (st, 0, [])
  | m :: ms =>
    let r := addAllLoop (addNoteSt st did (formatNoteHtml m)) did ms
    (r.1, r.2.1 + 1, GOp.createNote did (formatNoteHtml m) :: r.2.2)

/-- Step 5: create the person when none was found, create the deal with the
two custom attributes, add the link-back note, then every message. -/
def createPath (st : RemoteState) (cfgx : SenderCfg)
    (contactName dealTitle noteLink : List Char) (msgs : List Message)
    (pidOpt : Option Nat) (keys : List Char × List Char) :
    RemoteState × RunResult × List GOp :=
  let step1 : RemoteState × Nat × List GOp :=
    match pidOpt with
    | some pid => (st, pid, [])
    | none =>
      (⟨st.persons ++ [⟨st.nextId, contactName⟩], st.deals, st.notes,
        st.dealFields, st.nextId + 1⟩, st.nextId,
       [GOp.createPerson contactName])
  let st1 := step1.1
  let pid := step1.2.1
  let did := st1.nextId
  let st2 : RemoteState :=
    ⟨st1.persons,
     st1.deals ++ [⟨did, pid, dealTitle, keys.1, cfgx.sourceChannelOptionId,
                    keys.2, cfgx.sourceCompanyOptionId⟩],
     st1.notes, st1.dealFields, st1.nextId + 1⟩
  let st3 := addNoteSt st2 did noteLink
  let r := addAllLoop st3 did msgs
  (r.1, ⟨pid, did, r.2.1, Action.created_new_deal⟩,
   step1.2.2 ++ [GOp.createDeal dealTitle, GOp.createNote did noteLink]
     ++ r.2.2)

/-- `contactPersonFirstName`: `contactPersonName.split(' ')[0] ||
contactPersonName`. -/
def firstNameOf (name : List Char) : List Char :=
  if (firstTok name).isEmpty then name else firstTok name

/-- The reconciliation engine: `main` from the empty-thread check onward,
over an already-parsed message list.  Returns the result (or error), the
final remote state, and the trace of gateway operations in issue order. -/
def reconcile (msgs : List Message) (cfgx : SenderCfg)
    (contactName url : List Char) (st : RemoteState) :
    Except RunError RunResult × RemoteState × List GOp :=
  match msgs with
  | [] => (.error .emptyThread, st, [])
  | m0 :: _ =>
    let firstName := firstNameOf contactName
    let dealTitle := cfgx.dealTitleStub ++ S " - " ++ firstName ++
      S " - \"" ++ m0.text.take 10 ++ S "...\""
    let noteLink := S "<div style=\"font-size:11px; color:#999; margin-bottom:8px;\"><b>SS thread:</b> <a href=\"" ++
      url ++ S "\">" ++ url ++ S "</a></div>"
    match resolveKeys st with
    | none => (.error .configErr, st, [GOp.getDealFields])
    | some keys =>
      match findPersonByFirstName st firstName with
      | some p =>
        let ds := dealsOf st p.id
        let r := scanDeals st msgs m0.text ds
        match r.2.1 with
        | some dk =>
          (.ok ⟨p.id, dk.1, dk.2, Action.synced_notes_to_existing_deal⟩,
           r.1,
           [GOp.getDealFields, GOp.searchPersons firstName,
            GOp.getDeals p.id] ++ r.2.2)
        | none =>
          let c := createPath r.1 cfgx contactName dealTitle noteLink msgs
                     (some p.id) keys
          (.ok c.2.1, c.1,
           [GOp.getDealFields, GOp.searchPersons firstName,
            GOp.getDeals p.id] ++ r.2.2 ++ c.2.2)
      | none =>
        let c := createPath st cfgx contactName dealTitle noteLink msgs
                   none keys
        (.ok c.2.1, c.1,
         [GOp.getDealFields, GOp.searchPersons firstName] ++ c.2.2)

/-! ## String lemmas -/

theorem isPrefixOf_append_self (n q : List Char) :
    n.isPrefixOf (n ++ q) = true := by
  induction n with
  | nil => simp
  | cons c t ih => simp [List.isPrefixOf_cons₂, ih]

theorem containsSub_cons_of {t n : List Char} (c : Char)
    (h : containsSub t n = true) : containsSub (c :: t) n = true := by
  rw [containsSub.eq_def]
  cases hp : n.isPrefixOf (c :: t) with
  | true => simp [hp]
  | false => simp [hp, h]

theorem containsSub_append_of (a : List Char) {t n : List Char}
    (h : containsSub t n = true) : containsSub (a ++ t) n = true := by
  induction a with
  | nil => simpa using h
  | cons c r ih => exact containsSub_cons_of c ih

theorem containsSub_self_append (n q : List Char) :
    containsSub (n ++ q) n = true := by
  rw [containsSub.eq_def]
  simp [isPrefixOf_append_self]

theorem containsSub_split (p n q : List Char) :
    containsSub (p ++ n ++ q) n = true := by
  rw [List.append_assoc]
  exact containsSub_append_of p (containsSub_self_append n q)

theorem containsSub_refl (n : List Char) : containsSub n n = true := by
  simpa using containsSub_self_append n []

theorem jsTrimLeft_cons_ws {c : Char} (r : List Char) (h : jsWs c = true) :
    jsTrimLeft (c :: r) = jsTrimLeft r := by
  simp [jsTrimLeft, h]

theorem jsTrimLeft_cons_not {c : Char} (r : List Char) (h : jsWs c = false) :
    jsTrimLeft (c :: r) = c :: r := by
  simp [jsTrimLeft, h]

theorem jsTrim_cons_newline (r : List Char) : jsTrim ('\n' :: r) = jsTrim r := by
  unfold jsTrim
  rw [jsTrimLeft_cons_ws _ (by decide)]

theorem jsTrimRight_close_div (x : List Char) :
    jsTrimRight (x ++ S "\n  </div>\n</div>") =
      x ++ S "\n  </div>\n</div>" := by
  unfold jsTrimRight
  rw [List.reverse_append,
      show (S "\n  </div>\n</div>").reverse =
        '>' :: (S "\n  </div>\n</div").reverse from rfl,
      List.cons_append, jsTrimLeft_cons_not _ (by decide)]
  simp only [← List.cons_append, List.reverse_cons, List.reverse_append,
    List.reverse_reverse, List.append_assoc]
  rw [show (S "\n  </div>\n</div") ++ ['>'] =
        S "\n  </div>\n</div>" from rfl]

/-! ## C4: the note formatter -/

theorem jsTrim_fmt_closed (z : List Char) :
    jsTrim ((S "<div style=\"border-left: 4px solid " ++ z) ++
        S "\n  </div>\n</div>") =
      (S "<div style=\"border-left: 4px solid " ++ z) ++
        S "\n  </div>\n</div>" := by
  unfold jsTrim
  rw [show (S "<div style=\"border-left: 4px solid " ++ z) ++
        S "\n  </div>\n</div>" =
      '<' :: ((S "div style=\"border-left: 4px solid " ++ z) ++
        S "\n  </div>\n</div>") from rfl]
  rw [jsTrimLeft_cons_not _ (by decide)]
  rw [show '<' :: ((S "div style=\"border-left: 4px solid " ++ z) ++
        S "\n  </div>\n</div>") =
      ('<' :: (S "div style=\"border-left: 4px solid " ++ z)) ++
        S "\n  </div>\n</div>" from rfl]
  rw [jsTrimRight_close_div]

theorem formatNote_contains (m : Message) :
    containsSub (formatNoteHtml m) m.text = true := by
  have e1 : ∀ z : List Char, S "\n<div style=\"border-left: 4px solid " ++ z =
      '\n' :: (S "<div style=\"border-left: 4px solid " ++ z) := fun z => rfl
  cases hd : m.direction <;>
  · simp only [formatNoteHtml, hd, reduceCtorEq, reduceIte]
    simp only [List.append_assoc]
    rw [e1, jsTrim_cons_newline]
    rw [show ∀ a b c d e f g h i j : List Char,
          S "<div style=\"border-left: 4px solid " ++
            (a ++ (b ++ (c ++ (d ++ (e ++ (f ++ (g ++ (h ++ (i ++ (j ++
              (m.text ++ S "\n  </div>\n</div>"))))))))))) =
          (S "<div style=\"border-left: 4px solid " ++
            (a ++ (b ++ (c ++ (d ++ (e ++ (f ++ (g ++ (h ++ (i ++ (j ++
              m.text)))))))))))
            ++ S "\n  </div>\n</div>" from by intros; simp [List.append_assoc]]
    rw [jsTrim_fmt_closed]
    simp only [List.append_assoc]
    repeat
      first
      | exact containsSub_self_append _ _
      | apply containsSub_append_of

/-- C4: for every message `m`, the note formatter is a total pure function
(`formatNoteHtml` is a plain total definition, with no failure mode) and its
output contains `m.text` verbatim as a literal substring of the rendered
fragment. -/
theorem C4_formatter_contains_text (m : Message) :
    containsSub (formatNoteHtml m) m.text = true :=
  formatNote_contains m

/-- C8: if the parsed thread contains zero messages, reconciliation fails
with an `EmptyThreadError` before any reconciliation step begins: the state
is untouched and the gateway-operation trace is empty. -/
theorem C8_empty_thread_aborts_before_gateway (cfgx : SenderCfg)
    (name url : List Char) (st : RemoteState) :
    reconcile [] cfgx name url st = (.error .emptyThread, st, []) := rfl

/-! ## Sorting lemmas (for C2) -/

theorem insMsg_perm (acc : List Message) (m : Message) :
    (insMsg acc m).Perm (m :: acc) := by
  induction acc with
  | nil => simp [insMsg]
  | cons x xs ih =>
    rw [insMsg]
    split
    · exact ((ih.cons x).trans (List.Perm.swap m x xs))
    · exact List.Perm.refl _

theorem insMsg_sorted {acc : List Message} (m : Message)
    (h : acc.Pairwise (fun a b => idNum a ≤ idNum b)) :
    (insMsg acc m).Pairwise (fun a b => idNum a ≤ idNum b) := by
  induction acc with
  | nil => simp [insMsg]
  | cons x xs ih =>
    rw [insMsg]
    rw [List.pairwise_cons] at h
    split
    · rename_i hle
      rw [List.pairwise_cons]
      refine ⟨fun y hy => ?_, ih h.2⟩
      rcases List.mem_cons.mp (((insMsg_perm xs m).mem_iff).mp hy) with rfl | hyx
      · exact hle
      · exact h.1 y hyx
    · rename_i hgt
      rw [List.pairwise_cons]
      exact ⟨fun y hy => by
        rcases List.mem_cons.mp hy with rfl | hyx
        · omega
        · exact le_trans (by omega) (h.1 y hyx),
        List.pairwise_cons.mpr h⟩

theorem foldl_insMsg_perm (l acc : List Message) :
    (l.foldl insMsg acc).Perm (acc ++ l) := by
  induction l generalizing acc with
  | nil => simp
  | cons x xs ih =>
    rw [List.foldl_cons]
    refine (ih (insMsg acc x)).trans ?_
    have h1 : (insMsg acc x ++ xs).Perm ((x :: acc) ++ xs) :=
      (insMsg_perm acc x).append_right xs
    refine h1.trans ?_
    simp only [List.cons_append]
    exact (List.perm_middle).symm

theorem sortMessages_perm (l : List Message) : (sortMessages l).Perm l := by
  simpa [sortMessages] using foldl_insMsg_perm l []

theorem sortMessages_sorted (l : List Message) :
    (sortMessages l).Pairwise (fun a b => idNum a ≤ idNum b) := by
  rw [sortMessages]
  have : ∀ acc, acc.Pairwise (fun a b => idNum a ≤ idNum b) →
      (l.foldl insMsg acc).Pairwise (fun a b => idNum a ≤ idNum b) := by
    induction l with
    | nil => exact fun acc h => h
    | cons x xs ih => exact fun acc h => ih _ (insMsg_sorted x h)
  exact this [] (List.Pairwise.nil)

/-! ## The kept blocks of a scan (for C2/C9) -/

theorem processBlocks_ids_sublist (chat : List Char)
    (texts : List (List Char × List Char)) :
    ∀ (blocks : List Block) (dates : List DateM) (cur : List Char),
      ((processBlocks chat texts blocks dates cur).1.map Message.id).Sublist
        (blocks.map Block.id) := by
  intro blocks
  induction blocks with
  | nil => intro dates cur; simp [processBlocks]
  | cons b bs ih =>
    intro dates cur
    rw [processBlocks]
    split
    · exact (ih _ _).cons _
    · simpa using List.Sublist.cons₂ b.id (ih _ _)

theorem processBlocks_text (chat : List Char)
    (texts : List (List Char × List Char)) :
    ∀ (blocks : List Block) (dates : List DateM) (cur : List Char)
      (m : Message), m ∈ (processBlocks chat texts blocks dates cur).1 →
      m.text = (lookupLastC texts m.id).getD [] ∧ m.text ≠ [] := by
  intro blocks
  induction blocks with
  | nil => intro dates cur m hm; simp [processBlocks] at hm
  | cons b bs ih =>
    intro dates cur m hm
    rw [processBlocks] at hm
    split at hm
    · exact ih _ _ m hm
    · rename_i hne
      rcases List.mem_cons.mp hm with rfl | hm'
      · refine ⟨rfl, ?_⟩
        simpa [List.isEmpty_iff] using hne
      · exact ih _ _ m hm'

theorem processBlocks_warn (chat : List Char)
    (texts : List (List Char × List Char)) :
    ∀ (blocks : List Block) (dates : List DateM) (cur : List Char)
      (b : Block), b ∈ blocks →
      ((lookupLastC texts b.id).getD []).isEmpty = true →
      b.id ∈ (processBlocks chat texts blocks dates cur).2 := by
  intro blocks
  induction blocks with
  | nil => intro dates cur b hb; simp at hb
  | cons x bs ih =>
    intro dates cur b hb hempty
    rw [processBlocks]
    rcases List.mem_cons.mp hb with rfl | hb'
    · rw [if_pos hempty]
      exact List.mem_cons_self _ _
    · split
      · exact List.mem_cons_of_mem _ (ih _ _ b hb' hempty)
      · exact ih _ _ b hb' hempty

/-! ## C2: ordering of parsed messages -/

/-- C2 (amended): for every input HTML on which parse succeeds, the returned
messages are sorted ascending by the numeric value of their id, regardless
of the order of the blocks in the source markup; and whenever the numeric
values of the scanned block ids are pairwise distinct, the order is strictly
ascending and the ids are unique.  (Without that proviso duplicate anchors
produce duplicate ids — see the counterexample.) -/
theorem C2_parse_sorted_by_id (html chat : List Char) (msgs : List Message)
    (warns : List (List Char))
    (hc : findChatDiv html = some chat)
    (hok : parseThread html = Except.ok (msgs, warns)) :
    msgs.Pairwise (fun a b => idNum a ≤ idNum b) ∧
    (((scanBlocks chat).map (fun b => digitsVal b.id)).Pairwise (· ≠ ·) →
      msgs.Pairwise (fun a b => idNum a < idNum b) ∧
      (msgs.map Message.id).Nodup) := by
  have hred : parseThread html =
      (if utf16Len chat < 50 then Except.error ParseErr.chatEmpty
       else Except.ok (sortMessages (processBlocks chat (scanScripts chat)
              (scanBlocks chat) (scanDates chat) []).1,
            (processBlocks chat (scanScripts chat) (scanBlocks chat)
              (scanDates chat) []).2)) := by
    rw [parseThread, hc]
  rw [hred] at hok
  split at hok
  · exact absurd hok (by simp)
  · rw [Except.ok.injEq, Prod.mk.injEq] at hok
    obtain ⟨h1, _⟩ := hok
    subst h1
    set P := (processBlocks chat (scanScripts chat) (scanBlocks chat)
      (scanDates chat) []).1 with hP
    refine ⟨sortMessages_sorted P, fun hdist => ?_⟩
    have hdist' : (scanBlocks chat).Pairwise
        (fun a b => digitsVal a.id ≠ digitsVal b.id) :=
      (List.pairwise_map).mp hdist
    have hidl : ((scanBlocks chat).map Block.id).Pairwise
        (fun x y => digitsVal x ≠ digitsVal y) :=
      (List.pairwise_map).mpr hdist'
    have hsub := processBlocks_ids_sublist chat (scanScripts chat)
      (scanBlocks chat) (scanDates chat) []
    have hPids : (P.map Message.id).Pairwise
        (fun x y => digitsVal x ≠ digitsVal y) := hidl.sublist hsub
    have hPne := (List.pairwise_map).mp hPids
    have hMne :=
      ((sortMessages_perm P).pairwise_iff (fun h e => h e.symm)).mpr hPne
    refine ⟨((sortMessages_sorted P).and hMne).imp ?_, ?_⟩
    · exact fun h => lt_of_le_of_ne h.1 h.2
    · exact (List.pairwise_map).mpr (hMne.imp (fun h hid => h (by rw [hid])))

/-- An HTML page whose chat region contains two message blocks with the same
anchor id `5` (both therefore receiving the same script text). -/
def c2html : List Char :=
  S "<div id=\"chat_dv\"><script>_out_text(\"dup\", \"mail_content_5\");</script><a name=\"5\"></a><div>x<td class=\"td15\">1:0</td><a name=\"5\"></a><div>y<td class=\"td15\">1:1</td></div><div style=\"margin-top: 20px;\">"

/-- The two messages `parseThread` returns for `c2html`. -/
def c2msgs : List Message :=
  [⟨S "5", S "dup", S "1:0", S "Unknown date", Direction.received⟩,
   ⟨S "5", S "dup", S "1:1", S "Unknown date", Direction.received⟩]

/-- C2 counterexample: on `c2html` the parse succeeds but returns two
messages with the same id `"5"`: the output is neither strictly ascending by
numeric id nor unique in ids, refuting the claim as stated. -/
theorem C2_counterexample :
    parseThread c2html = Except.ok (c2msgs, []) ∧
    ¬ c2msgs.Pairwise (fun a b => idNum a < idNum b) ∧
    ¬ (c2msgs.map Message.id).Nodup :=
  ⟨by rfl, by decide, by decide⟩

/-- A concrete successful-parse input for the amended C2 theorem: three
blocks with distinct ids 5, 3, 9 (9 without a script text). -/
def w9html : List Char :=
  S "<div id=\"chat_dv\"><script>_out_text(\"t5\", \"mail_content_5\");</script><script>_out_text(\"t3\", \"mail_content_3\");</script><a name=\"5\"></a><div>s<td class=\"td15\">1:0</td><a name=\"3\"></a><div>t<td class=\"td15\">1:3</td><a name=\"9\"></a><div>u<td class=\"td15\">1:4</td></div><div style=\"margin-top: 20px;\">"

/-- The chat region `findChatDiv` extracts from `w9html`. -/
def w9chat : List Char :=
  S "<script>_out_text(\"t5\", \"mail_content_5\");</script><script>_out_text(\"t3\", \"mail_content_3\");</script><a name=\"5\"></a><div>s<td class=\"td15\">1:0</td><a name=\"3\"></a><div>t<td class=\"td15\">1:3</td><a name=\"9\"></a><div>u<td class=\"td15\">1:4</td>"

/-- The messages `parseThread` returns for `w9html` (block 9 is skipped: it
has no script text; blocks 5 and 3 come back sorted as 3, 5). -/
def w9msgs : List Message :=
  [⟨S "3", S "t3", S "1:3", S "Unknown date", Direction.received⟩,
   ⟨S "5", S "t5", S "1:0", S "Unknown date", Direction.received⟩]

/-- Witness for the amended C2 theorem at `w9html`. -/
theorem C2_parse_sorted_by_id_witness :
    parseThread w9html = Except.ok (w9msgs, [S "9"]) ∧
    (w9msgs.Pairwise (fun a b => idNum a ≤ idNum b) ∧
     (((scanBlocks w9chat).map (fun b => digitsVal b.id)).Pairwise (· ≠ ·) →
      w9msgs.Pairwise (fun a b => idNum a < idNum b) ∧
      (w9msgs.map Message.id).Nodup)) :=
  ⟨by rfl,
   C2_parse_sorted_by_id w9html w9chat w9msgs [S "9"] (by rfl) (by rfl)⟩

/-! ## C9: per-block omission -/

/-- C9: during parsing, a block whose id has no (or an empty) text entry in
the inline-script lookup is skipped with a warning and omitted from the
returned thread, and such omissions never make the parse as a whole fail:
whenever the chat container is located and long enough, the parse returns
`ok`, every block with a missing/empty text entry is warned about and
produces no message, and every returned message has non-empty text. -/
theorem C9_skip_and_warn (html chat : List Char)
    (hc : findChatDiv html = some chat)
    (hlen : ¬ utf16Len chat < 50) :
    ∃ msgs warns, parseThread html = Except.ok (msgs, warns) ∧
      (∀ b ∈ scanBlocks chat,
        ((lookupLastC (scanScripts chat) b.id).getD []).isEmpty = true →
          b.id ∈ warns ∧ ∀ m ∈ msgs, m.id ≠ b.id) ∧
      (∀ m ∈ msgs, m.text ≠ []) := by
  refine ⟨sortMessages (processBlocks chat (scanScripts chat)
            (scanBlocks chat) (scanDates chat) []).1,
          (processBlocks chat (scanScripts chat) (scanBlocks chat)
            (scanDates chat) []).2, ?_, ?_, ?_⟩
  · have hred : parseThread html =
        (if utf16Len chat < 50 then Except.error ParseErr.chatEmpty
         else Except.ok (sortMessages (processBlocks chat (scanScripts chat)
                (scanBlocks chat) (scanDates chat) []).1,
              (processBlocks chat (scanScripts chat) (scanBlocks chat)
                (scanDates chat) []).2)) := by
      rw [parseThread, hc]
    rw [hred, if_neg hlen]
  · intro b hb he
    refine ⟨processBlocks_warn chat (scanScripts chat) (scanBlocks chat)
      (scanDates chat) [] b hb he, ?_⟩
    intro m hm hid
    have hmem : m ∈ (processBlocks chat (scanScripts chat) (scanBlocks chat)
        (scanDates chat) []).1 := ((sortMessages_perm _).mem_iff).mp hm
    have h2 := processBlocks_text chat (scanScripts chat) (scanBlocks chat)
      (scanDates chat) [] m hmem
    apply h2.2
    rw [h2.1, hid, List.isEmpty_iff.mp he]
  · intro m hm
    exact (processBlocks_text chat (scanScripts chat) (scanBlocks chat)
      (scanDates chat) [] m (((sortMessages_perm _).mem_iff).mp hm)).2

/-- Witness for C9 at `w9html`: the hypotheses hold concretely, and block
`9` (which has no script text) is indeed reported in the warnings. -/
theorem C9_skip_and_warn_witness :
    (∃ msgs warns, parseThread w9html = Except.ok (msgs, warns) ∧
      (∀ b ∈ scanBlocks w9chat,
        ((lookupLastC (scanScripts w9chat) b.id).getD []).isEmpty = true →
          b.id ∈ warns ∧ ∀ m ∈ msgs, m.id ≠ b.id) ∧
      (∀ m ∈ msgs, m.text ≠ [])) ∧
    (parseThread w9html).toOption.map (fun p => p.2) = some [S "9"] :=
  ⟨C9_skip_and_warn w9html w9chat (by rfl) (by decide), by rfl⟩

/-! ## C3: date assignment

The claim is a refinement statement: the code's two-pointer assignment loop
against the spec's "nearest preceding date marker by offset" rule.  The
spec-side functions below follow the claim's words. -/

/-- Claim-side date assignment: the (trimmed) text of the nearest date
marker whose offset precedes the block's offset; `'Unknown date'` when no
marker precedes. -/
def nearestDateSpec (dates : List DateM) (p : Nat) : List Char :=
  match (dates.filter (fun d => decide (d.pos < p))).getLast? with
  | none => S "Unknown date"
  | some d => jsTrim d.cap

/-- Amended claim-side date assignment: additionally, a nearest marker whose
trimmed text is empty also yields `'Unknown date'` (the code treats the
empty string as falsy). -/
def nearestDateAmended (dates : List DateM) (p : Nat) : List Char :=
  match (dates.filter (fun d => decide (d.pos < p))).getLast? with
  | none => S "Unknown date"
  | some d => if (jsTrim d.cap).isEmpty then S "Unknown date" else jsTrim d.cap

/-- The current-date value after consuming a run of date markers, starting
from `c`: the trimmed capture of the last one, if any. -/
def dateCur (l : List DateM) (c : List Char) : List Char :=
  l.foldl (fun _ d => jsTrim d.cap) c

theorem dateCur_append (l₁ l₂ : List DateM) (c : List Char) :
    dateCur (l₁ ++ l₂) c = dateCur l₂ (dateCur l₁ c) := by
  simp [dateCur]

theorem dateCur_getLast (l : List DateM) (c : List Char) :
    dateCur l c = (match l.getLast? with
                   | none => c
                   | some d => jsTrim d.cap) := by
  induction l generalizing c with
  | nil => rfl
  | cons d ds ih =>
    rw [show dateCur (d :: ds) c = dateCur ds (jsTrim d.cap) from rfl, ih]
    cases ds with
    | nil => rfl
    | cons e es =>
      rw [List.getLast?_cons_cons]
      cases hl : (e :: es).getLast? with
      | none => exact absurd (List.getLast?_eq_none_iff.mp hl) (by simp)
      | some x => rfl

/-- Under faithful `indexOf` offsets, the date-pointer advance consumes
exactly the leading markers whose offset precedes the block. -/
theorem advanceDates_eq (chat : List Char) (p : Nat) :
    ∀ (rest : List DateM) (cur : List Char),
      (∀ d ∈ rest, indexOfI chat d.full = (d.pos : Int)) →
      advanceDates chat p rest cur =
        (rest.dropWhile (fun d => decide (d.pos < p)),
         dateCur (rest.takeWhile (fun d => decide (d.pos < p))) cur) := by
  intro rest
  induction rest with
  | nil => intro cur _; simp [advanceDates, dateCur]
  | cons d ds ih =>
    intro cur hidx
    rw [advanceDates, hidx d (List.mem_cons_self d ds)]
    by_cases hlt : d.pos < p
    · rw [if_pos (by exact_mod_cast hlt)]
      rw [ih (jsTrim d.cap) (fun e he => hidx e (List.mem_cons_of_mem d he))]
      rw [List.dropWhile_cons, List.takeWhile_cons]
      simp [hlt, dateCur]
    · rw [if_neg (by exact_mod_cast hlt)]
      rw [List.dropWhile_cons, List.takeWhile_cons]
      simp [hlt, dateCur]

/-- On a position-sorted marker list, the prefix of markers preceding `p` is
all of the markers preceding `p`. -/
theorem takeWhile_eq_filter_pos (p : Nat) :
    ∀ (l : List DateM), l.Pairwise (fun a b => a.pos < b.pos) →
      l.takeWhile (fun d => decide (d.pos < p)) =
        l.filter (fun d => decide (d.pos < p)) := by
  intro l
  induction l with
  | nil => intro _; rfl
  | cons d ds ih =>
    intro hs
    rw [List.pairwise_cons] at hs
    rw [List.takeWhile_cons, List.filter_cons]
    by_cases hlt : d.pos < p
    · simp [hlt, ih hs.2]
    · simp only [hlt, decide_False, Bool.false_eq_true, if_false]
      refine (List.filter_eq_nil_iff.mpr ?_).symm
      intro e he
      simp only [decide_eq_true_eq]
      have := hs.1 e he
      omega

/-- Indices produced by the scanner are at least the running offset. -/
theorem scanAllF_ge (tryM : List Char → Option (α × List Char)) :
    ∀ (fuel : Nat) (s : List Char) (i : Nat) (x : α × Nat),
      x ∈ scanAllF tryM fuel s i → i ≤ x.2 := by
  intro fuel
  induction fuel with
  | zero => intro s i x hx; simp [scanAllF] at hx
  | succ n ih =>
    intro s i x hx
    match s with
    | [] => simp [scanAllF] at hx
    | c :: tail =>
      rw [scanAllF] at hx
      split at hx
      · rcases List.mem_cons.mp hx with rfl | hx'
        · exact le_refl _
        · have := ih _ _ x hx'
          omega
      · have := ih _ _ x hx
        omega

/-- Indices produced by the scanner are strictly increasing. -/
theorem scanAllF_pairwise (tryM : List Char → Option (α × List Char)) :
    ∀ (fuel : Nat) (s : List Char) (i : Nat),
      (scanAllF tryM fuel s i).Pairwise (fun a b => a.2 < b.2) := by
  intro fuel
  induction fuel with
  | zero => intro s i; simp [scanAllF]
  | succ n ih =>
    intro s i
    match s with
    | [] => simp [scanAllF]
    | c :: tail =>
      rw [scanAllF]
      split
      · rename_i a rest heq
        refine List.pairwise_cons.mpr ⟨fun x hx => ?_, ih _ _⟩
        have h1 := scanAllF_ge tryM n _ _ x hx
        have h2 : 1 ≤ max ((c :: tail).length - rest.length) 1 :=
          le_max_right _ _
        omega
      · exact ih _ _

theorem scanDates_pos_sorted (chat : List Char) :
    (scanDates chat).Pairwise (fun a b => a.pos < b.pos) := by
  rw [scanDates]
  exact (List.pairwise_map).mpr (scanAllF_pairwise matchDate _ _ _)

theorem scanBlocks_pos_sorted (chat : List Char) :
    (scanBlocks chat).Pairwise (fun a b => a.pos < b.pos) := by
  rw [scanBlocks]
  exact (List.pairwise_map).mpr (scanAllF_pairwise matchBlock _ _ _)

/-- The heart of C3: with faithful `indexOf` offsets, the scan loop assigns
each kept block the amended nearest-preceding date. -/
theorem processBlocks_dates_eq (chat : List Char)
    (texts : List (List Char × List Char)) (full : List DateM)
    (hsorted : full.Pairwise (fun a b => a.pos < b.pos))
    (hidx : ∀ d ∈ full, indexOfI chat d.full = (d.pos : Int)) :
    ∀ (blocks : List Block) (done rest : List DateM),
      full = done ++ rest →
      blocks.Pairwise (fun a b => a.pos < b.pos) →
      (∀ d ∈ done, ∀ b ∈ blocks, d.pos < b.pos) →
      ((processBlocks chat texts blocks rest (dateCur done [])).1.map
         (fun m => (m.id, m.date))) =
        blocks.filterMap (fun b =>
          if ((lookupLastC texts b.id).getD []).isEmpty then none
          else some (b.id, nearestDateAmended full b.pos)) := by
  intro blocks
  induction blocks with
  | nil => intro done rest _ _ _; simp [processBlocks]
  | cons b bs ih =>
    intro done rest hsplit hbs hdone
    have hrest_sorted : rest.Pairwise (fun a b => a.pos < b.pos) := by
      rw [hsplit] at hsorted
      exact hsorted.sublist (List.sublist_append_right done rest)
    have hrest_idx : ∀ d ∈ rest, indexOfI chat d.full = (d.pos : Int) :=
      fun d hd => hidx d (by rw [hsplit]; exact List.mem_append_right _ hd)
    have hadv := advanceDates_eq chat b.pos rest (dateCur done []) hrest_idx
    set consumed := rest.takeWhile (fun d => decide (d.pos < b.pos)) with hcons
    set rest' := rest.dropWhile (fun d => decide (d.pos < b.pos)) with hrest'
    have hsplit' : full = (done ++ consumed) ++ rest' := by
      rw [hsplit, List.append_assoc, hcons, hrest',
          List.takeWhile_append_dropWhile]
    have hcur' : dateCur consumed (dateCur done []) =
        dateCur (done ++ consumed) [] := (dateCur_append done consumed []).symm
    have hbpos : ∀ d ∈ done ++ consumed, d.pos < b.pos := by
      intro d hd
      rcases List.mem_append.mp hd with hdl | hdr
      · exact hdone d hdl b (List.mem_cons_self b bs)
      · have := List.mem_takeWhile_imp (hcons ▸ hdr)
        simpa using this
    have hfilter : full.filter (fun d => decide (d.pos < b.pos)) =
        done ++ consumed := by
      rw [hsplit, List.filter_append]
      congr 1
      · exact List.filter_eq_self.mpr
          (fun d hd => by
            simp only [decide_eq_true_eq]
            exact hdone d hd b (List.mem_cons_self b bs))
      · exact (takeWhile_eq_filter_pos b.pos rest hrest_sorted).symm
    have hdatev : (if (dateCur (done ++ consumed) []).isEmpty then
          S "Unknown date" else dateCur (done ++ consumed) []) =
        nearestDateAmended full b.pos := by
      rw [nearestDateAmended, hfilter, dateCur_getLast]
      cases hlast : (done ++ consumed).getLast? with
      | none => rfl
      | some d =>
        by_cases he : (jsTrim d.cap).isEmpty
        · simp [he]
        · simp [he]
    have hih := ih (done ++ consumed) rest' hsplit'
      (List.pairwise_cons.mp hbs).2
      (by
        intro d hd b' hb'
        rcases List.mem_append.mp hd with hdl | hdr
        · exact hdone d hdl b' (List.mem_cons_of_mem b hb')
        · have h1 : d.pos < b.pos := by
            have := List.mem_takeWhile_imp (hcons ▸ hdr)
            simpa using this
          exact lt_trans h1 ((List.pairwise_cons.mp hbs).1 b' hb'))
    rw [processBlocks, List.filterMap_cons]
    simp only [hadv, hcur']
    by_cases hskip : ((lookupLastC texts b.id).getD []).isEmpty = true
    · simp only [hskip, if_true, ite_true]
      exact hih
    · simp only [hskip, Bool.false_eq_true, if_false, ite_false,
        List.map_cons]
      rw [hih, hdatev]

/-- C3 (amended): for every successfully parsed HTML, provided each date
marker's full matched text first occurs in the chat region at the marker's
own offset (the code recomputes offsets with `indexOf`, which takes the
first occurrence), every message carries as date the trimmed text of the
nearest date marker preceding its block, with `'Unknown date'` when no
marker precedes it or when that trimmed text is empty: the `(id, date)`
pairs of the result are a permutation of the kept blocks paired with their
nearest-preceding dates. -/
theorem C3_nearest_preceding_date (html chat : List Char)
    (msgs : List Message) (warns : List (List Char))
    (hc : findChatDiv html = some chat)
    (hok : parseThread html = Except.ok (msgs, warns))
    (hidx : ∀ d ∈ scanDates chat, indexOfI chat d.full = (d.pos : Int)) :
    (msgs.map (fun m => (m.id, m.date))).Perm
      ((scanBlocks chat).filterMap (fun b =>
        if ((lookupLastC (scanScripts chat) b.id).getD []).isEmpty then none
        else some (b.id, nearestDateAmended (scanDates chat) b.pos))) := by
  have hred : parseThread html =
      (if utf16Len chat < 50 then Except.error ParseErr.chatEmpty
       else Except.ok (sortMessages (processBlocks chat (scanScripts chat)
              (scanBlocks chat) (scanDates chat) []).1,
            (processBlocks chat (scanScripts chat) (scanBlocks chat)
              (scanDates chat) []).2)) := by
    rw [parseThread, hc]
  rw [hred] at hok
  split at hok
  · exact absurd hok (by simp)
  · rw [Except.ok.injEq, Prod.mk.injEq] at hok
    obtain ⟨h1, _⟩ := hok
    subst h1
    have heq := processBlocks_dates_eq chat (scanScripts chat)
      (scanDates chat) (scanDates_pos_sorted chat) hidx
      (scanBlocks chat) [] (scanDates chat) rfl
      (scanBlocks_pos_sorted chat) (by intro d hd; simp at hd)
    rw [← heq]
    exact (sortMessages_perm _).map _

/-- HTML whose chat region has two identical `M1` date markers straddling
the message block, with a distinct `M2` marker before the block: the code's
`indexOf` recomputation sends the trailing duplicate to offset 0. -/
def c3html : List Char :=
  S "<div id=\"chat_dv\"><div class=\"td15\">M1</div><div class=\"td15\">M2</div><script>_out_text(\"tx\", \"mail_content_7\");</script><a name=\"7\"></a><div>x<td class=\"td15\">1:0</td><div class=\"td15\">M1</div></div><div style=\"margin-top: 20px;\">"

/-- The chat region of `c3html`. -/
def c3chat : List Char :=
  S "<div class=\"td15\">M1</div><div class=\"td15\">M2</div><script>_out_text(\"tx\", \"mail_content_7\");</script><a name=\"7\"></a><div>x<td class=\"td15\">1:0</td><div class=\"td15\">M1</div>"

/-- C3 counterexample: on `c3html` the parse succeeds with the single
message dated `M1`, while the nearest date marker preceding the block (in
the sense of the claim: by actual offsets) says `M2`.  The duplicate `M1`
marker after the block is recomputed by `indexOf` to the offset of the
first `M1` marker and wrongly consumed. -/
theorem C3_counterexample :
    parseThread c3html =
      Except.ok ([⟨S "7", S "tx", S "1:0", S "M1", Direction.received⟩], []) ∧
    (scanBlocks c3chat).map
        (fun b => nearestDateSpec (scanDates c3chat) b.pos) = [S "M2"] :=
  ⟨by rfl, by rfl⟩

/-- HTML with two distinct date markers before its block (so `indexOf`
recomputation is faithful). -/
def c3whtml : List Char :=
  S "<div id=\"chat_dv\"><div class=\"td15\">M1</div><script>_out_text(\"tx\", \"mail_content_7\");</script><div class=\"td15\">M2</div><a name=\"7\"></a><div>x<td class=\"td15\">1:0</td></div><div style=\"margin-top: 20px;\">"

/-- The chat region of `c3whtml`. -/
def c3wchat : List Char :=
  S "<div class=\"td15\">M1</div><script>_out_text(\"tx\", \"mail_content_7\");</script><div class=\"td15\">M2</div><a name=\"7\"></a><div>x<td class=\"td15\">1:0</td>"

/-- Witness for the amended C3 theorem at `c3whtml`. -/
theorem C3_nearest_preceding_date_witness :
    ([(⟨S "7", S "tx", S "1:0", S "M2", Direction.received⟩ : Message)].map
        (fun m => (m.id, m.date))).Perm
      ((scanBlocks c3wchat).filterMap (fun b =>
        if ((lookupLastC (scanScripts c3wchat) b.id).getD []).isEmpty then none
        else some (b.id, nearestDateAmended (scanDates c3wchat) b.pos))) :=
  C3_nearest_preceding_date c3whtml c3wchat
    [⟨S "7", S "tx", S "1:0", S "M2", Direction.received⟩] []
    (by rfl) (by rfl) (by decide)

/-! ## C6: contact matching -/

theorem find?_filter_and {α} (l : List α) (p q : α → Bool) :
    (l.filter p).find? q = l.find? (fun a => p a && q a) := by
  induction l with
  | nil => rfl
  | cons x xs ih =>
    rw [List.filter_cons]
    by_cases hp : p x = true
    · rw [if_pos hp, List.find?_cons, List.find?_cons, hp, Bool.true_and]
      cases q x <;> simp [ih]
    · rw [if_neg hp, List.find?_cons,
          Bool.eq_false_iff.mpr hp, Bool.false_and, ih]

/-- The two-person store of the C6 example: `Jāni` first, `Jānis` second. -/
def c6exSt : RemoteState :=
  ⟨[⟨1, S "Jāni"⟩, ⟨2, S "Jānis"⟩], [], [], [], 10⟩

/-- C6 (amended): contact matching compares only the first space-delimited
token (`split(' ')[0]` — the space character only, not all whitespace) of
each candidate's full name, case-insensitively and as an exact token match,
against the queried first name, taking the first qualifying candidate of the
text-search result set in order; the search for `jānis bērziņš` matches the
existing contact `Jānis` but not `Jāni`. -/
theorem C6_first_token_exact_match :
    (∀ (st : RemoteState) (fn : List Char),
      findPersonByFirstName st fn =
        st.persons.find? (fun p =>
          containsSub (jsLower p.name) (jsLower fn) &&
          decide (jsLower (firstTok p.name) = jsLower fn))) ∧
    findPersonByFirstName c6exSt (firstNameOf (S "jānis bērziņš")) =
      some ⟨2, S "Jānis"⟩ := by
  constructor
  · intro st fn
    rw [findPersonByFirstName, searchPersons, find?_filter_and]
  · decide

/-- A store whose single contact has a tab inside the name: its first
space-delimited token is the whole name. -/
def c6tabSt : RemoteState :=
  ⟨[⟨1, S "Jānis\tB"⟩], [], [], [], 10⟩

/-- First whitespace-delimited token, as the claim's words have it. -/
def firstTokWs (s : List Char) : List Char :=
  s.takeWhile (fun c => !(jsWs c))

/-- Contact matching as literally claimed: compare the first
whitespace-delimited tokens of query and candidate names. -/
def findPersonByFirstTokWs (st : RemoteState) (contactName : List Char) :
    Option Person :=
  (searchPersons st (firstTokWs contactName)).find?
    (fun p => jsLower (firstTokWs p.name) = jsLower (firstTokWs contactName))

/-- C6 counterexample: for the query `jānis` and a candidate named
`Jānis<TAB>B`, the whitespace-token reading of the claim finds the contact,
but the code (which splits on the space character only) compares the token
`jānis<TAB>b` and finds nothing. -/
theorem C6_counterexample :
    findPersonByFirstName c6tabSt (firstNameOf (S "jānis")) = none ∧
    findPersonByFirstTokWs c6tabSt (S "jānis") = some ⟨1, S "Jānis\tB"⟩ :=
  ⟨by decide, by decide⟩

/-! ## C5: owning-deal scan -/

/-- The deals whose notes a trace fetched, in order. -/
def notesFetched (tr : List GOp) : List Nat :=
  tr.filterMap (fun op => match op with
    | GOp.getNotes d => some d
    | _ => none)

/-- The sync loop issues only note-creation operations. -/
theorem notesFetched_syncLoop (did : Nat) (ns : List NoteRec) :
    ∀ (msgs : List Message) (st' : RemoteState),
      notesFetched (syncLoop st' did ns msgs).2.2 = [] := by
  intro msgs
  induction msgs with
  | nil => intro st'; rfl
  | cons m ms ih =>
    intro st'
    rw [syncLoop]
    split
    · exact ih st'
    · simpa [notesFetched] using ih (addNoteSt st' did (formatNoteHtml m))

/-- The owning-deal scan on a listing whose first qualifying deal is `D`:
it syncs against `D` and its trace fetches notes exactly for the failing
prefix and `D`. -/
theorem scanDeals_found (st : RemoteState) (msgs : List Message)
    (ftext : List Char) :
    ∀ (pre : List DealRec) (D : DealRec) (post : List DealRec),
      (∀ d ∈ pre,
        (notesOf st d.id).any (fun n => containsSub n.content ftext) = false) →
      (notesOf st D.id).any (fun n => containsSub n.content ftext) = true →
      scanDeals st msgs ftext (pre ++ D :: post) =
        ((syncLoop st D.id (notesOf st D.id) msgs).1,
         some (D.id, (syncLoop st D.id (notesOf st D.id) msgs).2.1),
         pre.map (fun d => GOp.getNotes d.id) ++
           GOp.getNotes D.id :: (syncLoop st D.id (notesOf st D.id) msgs).2.2) := by
  intro pre
  induction pre with
  | nil =>
    intro D post _ hD
    rw [List.nil_append, scanDeals, if_pos hD]
    simp
  | cons d ds ih =>
    intro D post hpre hD
    rw [List.cons_append, scanDeals,
        if_neg (by rw [hpre d (List.mem_cons_self d ds)]; exact Bool.false_ne_true)]
    rw [ih D post (fun e he => hpre e (List.mem_cons_of_mem d he)) hD]
    simp

/-- The owning-deal scan on a listing with no qualifying deal: no sync, and
every deal's notes are fetched. -/
theorem scanDeals_none (st : RemoteState) (msgs : List Message)
    (ftext : List Char) :
    ∀ (ds : List DealRec),
      (∀ d ∈ ds,
        (notesOf st d.id).any (fun n => containsSub n.content ftext) = false) →
      scanDeals st msgs ftext ds =
        (st, none, ds.map (fun d => GOp.getNotes d.id)) := by
  intro ds
  induction ds with
  | nil => intro _; rfl
  | cons d es ih =>
    intro hall
    rw [scanDeals,
        if_neg (by rw [hall d (List.mem_cons_self d es)]; exact Bool.false_ne_true)]
    rw [ih (fun e he => hall e (List.mem_cons_of_mem d he))]
    simp

theorem notesFetched_map_getNotes (pre : List DealRec) :
    notesFetched (pre.map (fun d => GOp.getNotes d.id)) =
      pre.map DealRec.id := by
  induction pre with
  | nil => rfl
  | cons d ds ih =>
    simp only [notesFetched, List.map_cons, List.filterMap_cons] at ih ⊢
    rw [ih]

/-- C5: when a contact is found, the owning deal is the first deal (in the
gateway's listing order) with an existing note containing the opening
message's text; the scan stops there, fetching notes only for the failing
prefix and the owning deal itself — no later deal's notes are fetched. -/
theorem C5_first_owning_deal_stops (m0 : Message) (rest : List Message)
    (cfgx : SenderCfg) (name url : List Char) (st : RemoteState)
    (keys : List Char × List Char) (p : Person)
    (pre post : List DealRec) (D : DealRec)
    (hkeys : resolveKeys st = some keys)
    (hfind : findPersonByFirstName st (firstNameOf name) = some p)
    (hdeals : dealsOf st p.id = pre ++ D :: post)
    (hpre : ∀ d ∈ pre,
      (notesOf st d.id).any (fun n => containsSub n.content m0.text) = false)
    (hD : (notesOf st D.id).any
      (fun n => containsSub n.content m0.text) = true) :
    ∃ r, (reconcile (m0 :: rest) cfgx name url st).1 = Except.ok r ∧
      r.dealId = D.id ∧ r.personId = p.id ∧
      r.action = Action.synced_notes_to_existing_deal ∧
      notesFetched (reconcile (m0 :: rest) cfgx name url st).2.2 =
        pre.map DealRec.id ++ [D.id] := by
  have hscan := scanDeals_found st (m0 :: rest) m0.text pre D post hpre hD
  refine ⟨⟨p.id, D.id, (syncLoop st D.id (notesOf st D.id) (m0 :: rest)).2.1,
          Action.synced_notes_to_existing_deal⟩, ?_, rfl, rfl, rfl, ?_⟩
  · rw [reconcile]
    simp only [hkeys, hfind, hdeals, hscan]
  · rw [reconcile]
    simp only [hkeys, hfind, hdeals, hscan]
    rw [show notesFetched ([GOp.getDealFields,
          GOp.searchPersons (firstNameOf name), GOp.getDeals p.id] ++
          (pre.map (fun d => GOp.getNotes d.id) ++ GOp.getNotes D.id ::
            (syncLoop st D.id (notesOf st D.id) (m0 :: rest)).2.2)) =
        notesFetched (pre.map (fun d => GOp.getNotes d.id)) ++
          D.id :: notesFetched
            (syncLoop st D.id (notesOf st D.id) (m0 :: rest)).2.2 from by
      simp [notesFetched]]
    rw [notesFetched_syncLoop D.id (notesOf st D.id) (m0 :: rest) st]
    rw [notesFetched_map_getNotes]

/-- The state of the C5 witness: person 1 with three deals; only the second
deal's notes contain the opening text. -/
def c5St : RemoteState :=
  ⟨[⟨1, S "Anna"⟩],
   [⟨4, 1, S "d4", S "ck", 70, S "co", 47⟩,
    ⟨5, 1, S "d5", S "ck", 70, S "co", 47⟩,
    ⟨6, 1, S "d6", S "ck", 70, S "co", 47⟩],
   [⟨4, S "nothing here"⟩, ⟨5, S "says Labdien somewhere"⟩,
    ⟨6, S "Labdien too"⟩],
   [(36, S "ck"), (49, S "co")], 100⟩

/-- The opening message of the C5 witness. -/
def c5msg : Message :=
  ⟨S "1", S "Labdien", S "1:0", S "M1", Direction.received⟩

/-- Witness for C5: with three deals of which the second and third both
qualify, the scan returns the second and fetches notes only for deals 4 and
5 — deal 6 is never consulted. -/
theorem C5_first_owning_deal_stops_witness :
    ∃ r, (reconcile [c5msg] ⟨70, 47, S "T"⟩ (S "Anna") (S "u") c5St).1 =
        Except.ok r ∧
      r.dealId = 5 ∧ r.personId = 1 ∧
      r.action = Action.synced_notes_to_existing_deal ∧
      notesFetched (reconcile [c5msg] ⟨70, 47, S "T"⟩ (S "Anna") (S "u")
          c5St).2.2 = [4, 5] := by
  exact C5_first_owning_deal_stops c5msg [] ⟨70, 47, S "T"⟩ (S "Anna") (S "u")
    c5St (S "ck", S "co") ⟨1, S "Anna"⟩
    [⟨4, 1, S "d4", S "ck", 70, S "co", 47⟩]
    [⟨6, 1, S "d6", S "ck", 70, S "co", 47⟩]
    ⟨5, 1, S "d5", S "ck", 70, S "co", 47⟩
    (by decide) (by decide) (by decide) (by decide) (by decide)

/-! ## Full-run characterizations of the engine's three paths -/

/-- The note-append loop, in closed form. -/
theorem addAllLoop_spec (did : Nat) :
    ∀ (msgs : List Message) (st : RemoteState),
      addAllLoop st did msgs =
        (⟨st.persons, st.deals,
          st.notes ++ msgs.map (fun m => ⟨did, formatNoteHtml m⟩),
          st.dealFields, st.nextId⟩,
         msgs.length,
         msgs.map (fun m => GOp.createNote did (formatNoteHtml m))) := by
  intro msgs
  induction msgs with
  | nil => intro st; simp [addAllLoop]
  | cons m ms ih =>
    intro st
    rw [addAllLoop, ih]
    simp [addNoteSt]

/-- The predicate "message `m` already has a containing note among `ns`". -/
def hasNote (ns : List NoteRec) (m : Message) : Bool :=
  ns.any (fun n => containsSub n.content m.text)

/-- The sync loop, in closed form: it appends one formatted note per message
without a containing note, and counts exactly those. -/
theorem syncLoop_spec (did : Nat) (ns : List NoteRec) :
    ∀ (msgs : List Message) (st : RemoteState),
      syncLoop st did ns msgs =
        (⟨st.persons, st.deals,
          st.notes ++ (msgs.filter (fun m => !(hasNote ns m))).map
            (fun m => ⟨did, formatNoteHtml m⟩),
          st.dealFields, st.nextId⟩,
         (msgs.filter (fun m => !(hasNote ns m))).length,
         (msgs.filter (fun m => !(hasNote ns m))).map
           (fun m => GOp.createNote did (formatNoteHtml m))) := by
  intro msgs
  induction msgs with
  | nil => intro st; simp [syncLoop]
  | cons m ms ih =>
    intro st
    rw [syncLoop]
    by_cases hc : ns.any (fun n => containsSub n.content m.text) = true
    · rw [if_pos hc, ih]
      have hh : hasNote ns m = true := hc
      simp [List.filter_cons, hh]
    · rw [if_neg hc, ih]
      have hh : hasNote ns m = false := Bool.eq_false_iff.mpr hc
      simp [List.filter_cons, hh, addNoteSt]

/-- `createPath` with no existing contact, in closed form. -/
theorem createPath_none_spec (st : RemoteState) (cfgx : SenderCfg)
    (contactName dealTitle noteLink : List Char) (msgs : List Message)
    (keys : List Char × List Char) :
    createPath st cfgx contactName dealTitle noteLink msgs none keys =
      (⟨st.persons ++ [⟨st.nextId, contactName⟩],
        st.deals ++ [⟨st.nextId + 1, st.nextId, dealTitle, keys.1,
          cfgx.sourceChannelOptionId, keys.2, cfgx.sourceCompanyOptionId⟩],
        st.notes ++ ⟨st.nextId + 1, noteLink⟩ ::
          msgs.map (fun m => ⟨st.nextId + 1, formatNoteHtml m⟩),
        st.dealFields, st.nextId + 2⟩,
       ⟨st.nextId, st.nextId + 1, msgs.length, Action.created_new_deal⟩,
       GOp.createPerson contactName :: GOp.createDeal dealTitle ::
         GOp.createNote (st.nextId + 1) noteLink ::
         msgs.map (fun m => GOp.createNote (st.nextId + 1)
           (formatNoteHtml m))) := by
  rw [createPath]
  simp only [addAllLoop_spec, addNoteSt]
  simp [List.append_assoc]

/-- `createPath` with an existing contact, in closed form. -/
theorem createPath_some_spec (st : RemoteState) (cfgx : SenderCfg)
    (contactName dealTitle noteLink : List Char) (msgs : List Message)
    (pid : Nat) (keys : List Char × List Char) :
    createPath st cfgx contactName dealTitle noteLink msgs (some pid) keys =
      (⟨st.persons,
        st.deals ++ [⟨st.nextId, pid, dealTitle, keys.1,
          cfgx.sourceChannelOptionId, keys.2, cfgx.sourceCompanyOptionId⟩],
        st.notes ++ ⟨st.nextId, noteLink⟩ ::
          msgs.map (fun m => ⟨st.nextId, formatNoteHtml m⟩),
        st.dealFields, st.nextId + 1⟩,
       ⟨pid, st.nextId, msgs.length, Action.created_new_deal⟩,
       GOp.createDeal dealTitle :: GOp.createNote st.nextId noteLink ::
         msgs.map (fun m => GOp.createNote st.nextId (formatNoteHtml m))) := by
  rw [createPath]
  simp only [addAllLoop_spec, addNoteSt]
  simp [List.append_assoc]

/-- The deal title `main` builds. -/
def dealTitleOf (cfgx : SenderCfg) (name : List Char) (m0 : Message) :
    List Char :=
  cfgx.dealTitleStub ++ S " - " ++ firstNameOf name ++ S " - \"" ++
    m0.text.take 10 ++ S "...\""

/-- The link-back note `main` builds. -/
def noteLinkOf (url : List Char) : List Char :=
  S "<div style=\"font-size:11px; color:#999; margin-bottom:8px;\"><b>SS thread:</b> <a href=\"" ++
    url ++ S "\">" ++ url ++ S "</a></div>"

/-- Full-run characterization: no contact found. -/
theorem reconcile_created_none (m0 : Message) (rest : List Message)
    (cfgx : SenderCfg) (name url : List Char) (st : RemoteState)
    (keys : List Char × List Char)
    (hkeys : resolveKeys st = some keys)
    (hfind : findPersonByFirstName st (firstNameOf name) = none) :
    reconcile (m0 :: rest) cfgx name url st =
      (Except.ok ⟨st.nextId, st.nextId + 1, (m0 :: rest).length,
         Action.created_new_deal⟩,
       ⟨st.persons ++ [⟨st.nextId, name⟩],
        st.deals ++ [⟨st.nextId + 1, st.nextId, dealTitleOf cfgx name m0,
          keys.1, cfgx.sourceChannelOptionId,
          keys.2, cfgx.sourceCompanyOptionId⟩],
        st.notes ++ ⟨st.nextId + 1, noteLinkOf url⟩ ::
          (m0 :: rest).map (fun m => ⟨st.nextId + 1, formatNoteHtml m⟩),
        st.dealFields, st.nextId + 2⟩,
       GOp.getDealFields :: GOp.searchPersons (firstNameOf name) ::
         GOp.createPerson name :: GOp.createDeal (dealTitleOf cfgx name m0) ::
         GOp.createNote (st.nextId + 1) (noteLinkOf url) ::
         (m0 :: rest).map (fun m => GOp.createNote (st.nextId + 1)
           (formatNoteHtml m))) := by
  rw [reconcile]
  simp only [hkeys, hfind, createPath_none_spec]
  rfl

/-- Full-run characterization: contact found but no owning deal. -/
theorem reconcile_created_some (m0 : Message) (rest : List Message)
    (cfgx : SenderCfg) (name url : List Char) (st : RemoteState)
    (keys : List Char × List Char) (p : Person)
    (hkeys : resolveKeys st = some keys)
    (hfind : findPersonByFirstName st (firstNameOf name) = some p)
    (hnodeal : ∀ d ∈ dealsOf st p.id,
      (notesOf st d.id).any (fun n => containsSub n.content m0.text) = false) :
    reconcile (m0 :: rest) cfgx name url st =
      (Except.ok ⟨p.id, st.nextId, (m0 :: rest).length,
         Action.created_new_deal⟩,
       ⟨st.persons,
        st.deals ++ [⟨st.nextId, p.id, dealTitleOf cfgx name m0,
          keys.1, cfgx.sourceChannelOptionId,
          keys.2, cfgx.sourceCompanyOptionId⟩],
        st.notes ++ ⟨st.nextId, noteLinkOf url⟩ ::
          (m0 :: rest).map (fun m => ⟨st.nextId, formatNoteHtml m⟩),
        st.dealFields, st.nextId + 1⟩,
       GOp.getDealFields :: GOp.searchPersons (firstNameOf name) ::
         GOp.getDeals p.id ::
         ((dealsOf st p.id).map (fun d => GOp.getNotes d.id) ++
          GOp.createDeal (dealTitleOf cfgx name m0) ::
          GOp.createNote st.nextId (noteLinkOf url) ::
          (m0 :: rest).map (fun m => GOp.createNote st.nextId
            (formatNoteHtml m)))) := by
  rw [reconcile]
  simp only [hkeys, hfind, scanDeals_none st (m0 :: rest) m0.text _ hnodeal,
    createPath_some_spec]
  rfl

/-- Full-run characterization: contact found and an owning deal found. -/
theorem reconcile_synced (m0 : Message) (rest : List Message)
    (cfgx : SenderCfg) (name url : List Char) (st : RemoteState)
    (keys : List Char × List Char) (p : Person)
    (pre post : List DealRec) (D : DealRec)
    (hkeys : resolveKeys st = some keys)
    (hfind : findPersonByFirstName st (firstNameOf name) = some p)
    (hdeals : dealsOf st p.id = pre ++ D :: post)
    (hpre : ∀ d ∈ pre,
      (notesOf st d.id).any (fun n => containsSub n.content m0.text) = false)
    (hD : (notesOf st D.id).any
      (fun n => containsSub n.content m0.text) = true) :
    reconcile (m0 :: rest) cfgx name url st =
      (Except.ok ⟨p.id, D.id,
         ((m0 :: rest).filter
           (fun m => !(hasNote (notesOf st D.id) m))).length,
         Action.synced_notes_to_existing_deal⟩,
       ⟨st.persons, st.deals,
        st.notes ++ ((m0 :: rest).filter
            (fun m => !(hasNote (notesOf st D.id) m))).map
          (fun m => ⟨D.id, formatNoteHtml m⟩),
        st.dealFields, st.nextId⟩,
       GOp.getDealFields :: GOp.searchPersons (firstNameOf name) ::
         GOp.getDeals p.id ::
         (pre.map (fun d => GOp.getNotes d.id) ++
          GOp.getNotes D.id ::
          ((m0 :: rest).filter
            (fun m => !(hasNote (notesOf st D.id) m))).map
            (fun m => GOp.createNote D.id (formatNoteHtml m)))) := by
  rw [reconcile]
  simp only [hkeys, hfind, hdeals,
    scanDeals_found st (m0 :: rest) m0.text pre D post hpre hD,
    syncLoop_spec]
  rfl

/-! ## C7 and C10: the created-deal path -/

theorem filter_notes_same (did : Nat) (link : List Char)
    (msgs : List Message) :
    ((⟨did, link⟩ :: msgs.map (fun m => (⟨did, formatNoteHtml m⟩ : NoteRec))).filter
        (fun n => n.dealId = did)) =
      ⟨did, link⟩ :: msgs.map (fun m => (⟨did, formatNoteHtml m⟩ : NoteRec)) := by
  refine List.filter_eq_self.mpr ?_
  intro n hn
  rcases List.mem_cons.mp hn with rfl | hn'
  · simp
  · rcases List.mem_map.mp hn' with ⟨m, _, rfl⟩
    simp

/-- C7: when no owning deal is found (contact present or not), the engine
creates the contact only if none was found, creates one deal titled from the
sender's title prefix, the contact's first name and a 10-character excerpt
of the opening message, tagged with the sender's channel/company attribute
ids, and appends exactly one link-back note followed by one note per thread
message in thread (ascending-id) order, reporting `created_new_deal`. -/
theorem C7_creates_new_deal (m0 : Message) (rest : List Message)
    (cfgx : SenderCfg) (name url : List Char) (st : RemoteState)
    (keys : List Char × List Char)
    (hkeys : resolveKeys st = some keys)
    (hpath : findPersonByFirstName st (firstNameOf name) = none ∨
      ∃ p, findPersonByFirstName st (firstNameOf name) = some p ∧
        ∀ d ∈ dealsOf st p.id,
          (notesOf st d.id).any
            (fun n => containsSub n.content m0.text) = false) :
    ∃ r, (reconcile (m0 :: rest) cfgx name url st).1 = Except.ok r ∧
      r.action = Action.created_new_deal ∧
      r.notesAdded = (m0 :: rest).length ∧
      (reconcile (m0 :: rest) cfgx name url st).2.1.deals =
        st.deals ++ [⟨r.dealId, r.personId, dealTitleOf cfgx name m0,
          keys.1, cfgx.sourceChannelOptionId,
          keys.2, cfgx.sourceCompanyOptionId⟩] ∧
      notesOf (reconcile (m0 :: rest) cfgx name url st).2.1 r.dealId =
        notesOf st r.dealId ++ ⟨r.dealId, noteLinkOf url⟩ ::
          (m0 :: rest).map (fun m => ⟨r.dealId, formatNoteHtml m⟩) ∧
      (match findPersonByFirstName st (firstNameOf name) with
       | none => (reconcile (m0 :: rest) cfgx name url st).2.1.persons =
           st.persons ++ [⟨r.personId, name⟩]
       | some p => (reconcile (m0 :: rest) cfgx name url st).2.1.persons =
           st.persons ∧ r.personId = p.id) := by
  rcases hpath with hnone | ⟨p, hsome, hnodeal⟩
  · rw [reconcile_created_none m0 rest cfgx name url st keys hkeys hnone,
        hnone]
    refine ⟨_, rfl, rfl, rfl, rfl, ?_, ?_⟩
    · show (st.notes ++ _).filter _ = _
      rw [List.filter_append, filter_notes_same]
      rfl
    · rfl
  · rw [reconcile_created_some m0 rest cfgx name url st keys p hkeys hsome
        hnodeal, hsome]
    refine ⟨_, rfl, rfl, rfl, rfl, ?_, rfl, rfl⟩
    show (st.notes ++ _).filter _ = _
    rw [List.filter_append, filter_notes_same]
    rfl

/-- The empty Pipedrive store of the scenario-A witness. -/
def c7St : RemoteState := ⟨[], [], [], [(36, S "ck"), (49, S "co")], 100⟩

/-- Scenario-A messages with ids 3, 5, 9. -/
def c7m3 : Message := ⟨S "3", S "three", S "1:3", S "M", Direction.received⟩

def c7m5 : Message := ⟨S "5", S "five", S "1:5", S "M", Direction.sent⟩

def c7m9 : Message := ⟨S "9", S "nine", S "1:9", S "M", Direction.received⟩

/-- Witness for C7 (scenario A): a thread whose blocks carry ids 5, 3, 9
sorts to 3, 5, 9; with no existing contact the run creates the person and
deal and posts the link note followed by the three messages in that order
(4 notes, `notesAdded = 3`). -/
theorem C7_creates_new_deal_witness :
    sortMessages [c7m5, c7m3, c7m9] = [c7m3, c7m5, c7m9] ∧
    ((notesOf (reconcile [c7m3, c7m5, c7m9] ⟨70, 47, S "T"⟩ (S "Ilze")
        (S "u") c7St).2.1 101).map NoteRec.content =
      [noteLinkOf (S "u"), formatNoteHtml c7m3, formatNoteHtml c7m5,
       formatNoteHtml c7m9]) ∧
    (∃ r, (reconcile [c7m3, c7m5, c7m9] ⟨70, 47, S "T"⟩ (S "Ilze") (S "u")
        c7St).1 = Except.ok r ∧
      r.action = Action.created_new_deal ∧
      r.notesAdded = [c7m3, c7m5, c7m9].length ∧
      (reconcile [c7m3, c7m5, c7m9] ⟨70, 47, S "T"⟩ (S "Ilze") (S "u")
          c7St).2.1.deals =
        c7St.deals ++ [⟨r.dealId, r.personId,
          dealTitleOf ⟨70, 47, S "T"⟩ (S "Ilze") c7m3,
          (S "ck", S "co").1, 70, (S "ck", S "co").2, 47⟩] ∧
      notesOf (reconcile [c7m3, c7m5, c7m9] ⟨70, 47, S "T"⟩ (S "Ilze")
          (S "u") c7St).2.1 r.dealId =
        notesOf c7St r.dealId ++ ⟨r.dealId, noteLinkOf (S "u")⟩ ::
          [c7m3, c7m5, c7m9].map (fun m => ⟨r.dealId, formatNoteHtml m⟩) ∧
      (match findPersonByFirstName c7St (firstNameOf (S "Ilze")) with
       | none => (reconcile [c7m3, c7m5, c7m9] ⟨70, 47, S "T"⟩ (S "Ilze")
           (S "u") c7St).2.1.persons =
           c7St.persons ++ [⟨r.personId, S "Ilze"⟩]
       | some p => (reconcile [c7m3, c7m5, c7m9] ⟨70, 47, S "T"⟩ (S "Ilze")
           (S "u") c7St).2.1.persons = c7St.persons ∧ r.personId = p.id)) :=
  ⟨by rfl, by rfl,
   C7_creates_new_deal c7m3 [c7m5, c7m9] ⟨70, 47, S "T"⟩ (S "Ilze") (S "u")
     c7St (S "ck", S "co") (by rfl) (Or.inl (by rfl))⟩

/-- C10: in the created-deal path, the reported `notesAdded` equals the
number of thread messages and excludes the link-back note: the owning deal
receives one more note than `notesAdded`. -/
theorem C10_notesAdded_excludes_link_note (m0 : Message)
    (rest : List Message) (cfgx : SenderCfg) (name url : List Char)
    (st : RemoteState) (keys : List Char × List Char)
    (hkeys : resolveKeys st = some keys)
    (hpath : findPersonByFirstName st (firstNameOf name) = none ∨
      ∃ p, findPersonByFirstName st (firstNameOf name) = some p ∧
        ∀ d ∈ dealsOf st p.id,
          (notesOf st d.id).any
            (fun n => containsSub n.content m0.text) = false) :
    ∃ r, (reconcile (m0 :: rest) cfgx name url st).1 = Except.ok r ∧
      r.action = Action.created_new_deal ∧
      r.notesAdded = (m0 :: rest).length ∧
      (notesOf (reconcile (m0 :: rest) cfgx name url st).2.1 r.dealId).length
        = (notesOf st r.dealId).length + (r.notesAdded + 1) := by
  rcases hpath with hnone | ⟨p, hsome, hnodeal⟩
  · rw [reconcile_created_none m0 rest cfgx name url st keys hkeys hnone]
    refine ⟨_, rfl, rfl, rfl, ?_⟩
    show ((st.notes ++ _).filter _).length = _
    rw [List.filter_append, filter_notes_same]
    simp [notesOf]
  · rw [reconcile_created_some m0 rest cfgx name url st keys p hkeys hsome
        hnodeal]
    refine ⟨_, rfl, rfl, rfl, ?_⟩
    show ((st.notes ++ _).filter _).length = _
    rw [List.filter_append, filter_notes_same]
    simp [notesOf]

/-- Witness for C10 at the scenario-A input: the deal carries 4 notes while
`notesAdded` is 3. -/
theorem C10_notesAdded_excludes_link_note_witness :
    ((notesOf (reconcile [c7m3, c7m5, c7m9] ⟨70, 47, S "T"⟩ (S "Ilze")
        (S "u") c7St).2.1 101).length = 4) ∧
    (∃ r, (reconcile [c7m3, c7m5, c7m9] ⟨70, 47, S "T"⟩ (S "Ilze") (S "u")
        c7St).1 = Except.ok r ∧
      r.action = Action.created_new_deal ∧
      r.notesAdded = [c7m3, c7m5, c7m9].length ∧
      (notesOf (reconcile [c7m3, c7m5, c7m9] ⟨70, 47, S "T"⟩ (S "Ilze")
          (S "u") c7St).2.1 r.dealId).length =
        (notesOf c7St r.dealId).length + (r.notesAdded + 1)) :=
  ⟨by rfl,
   C10_notesAdded_excludes_link_note c7m3 [c7m5, c7m9] ⟨70, 47, S "T"⟩
     (S "Ilze") (S "u") c7St (S "ck", S "co") (by rfl) (Or.inl (by rfl))⟩

/-! ## C1: idempotence of reconciliation -/

theorem filter_map_same_deal (did : Nat) (msgs : List Message) :
    ((msgs.map (fun m => (⟨did, formatNoteHtml m⟩ : NoteRec))).filter
        (fun n => n.dealId = did)) =
      msgs.map (fun m => (⟨did, formatNoteHtml m⟩ : NoteRec)) := by
  refine List.filter_eq_self.mpr ?_
  intro n hn
  rcases List.mem_map.mp hn with ⟨m, _, rfl⟩
  simp

theorem hasNote_append_left {ns1 ns2 : List NoteRec} {m : Message}
    (h : hasNote ns1 m = true) : hasNote (ns1 ++ ns2) m = true := by
  simp only [hasNote, List.any_append] at h ⊢
  simp [h]

theorem hasNote_of_mem (did : Nat) (c : List Char) {ns : List NoteRec}
    {m : Message} (h : (⟨did, c⟩ : NoteRec) ∈ ns)
    (hc : containsSub c m.text = true) : hasNote ns m = true := by
  simp only [hasNote, List.any_eq_true]
  exact ⟨⟨did, c⟩, h, hc⟩

theorem sync_filter_nil {ns : List NoteRec} {msgs : List Message}
    (h : ∀ m ∈ msgs, hasNote ns m = true) :
    msgs.filter (fun m => !(hasNote ns m)) = [] := by
  refine List.filter_eq_nil_iff.mpr ?_
  intro m hm
  simp [h m hm]

theorem all_contained_after_sync (ns0 : List NoteRec) (did : Nat)
    (msgs : List Message) :
    ∀ m ∈ msgs,
      hasNote (ns0 ++ (msgs.filter (fun m => !(hasNote ns0 m))).map
        (fun m => ⟨did, formatNoteHtml m⟩)) m = true := by
  intro m hm
  by_cases hc : hasNote ns0 m = true
  · exact hasNote_append_left hc
  · have hmem : (⟨did, formatNoteHtml m⟩ : NoteRec) ∈
        ns0 ++ (msgs.filter (fun m => !(hasNote ns0 m))).map
          (fun m => ⟨did, formatNoteHtml m⟩) :=
      List.mem_append_right _ (List.mem_map.mpr
        ⟨m, List.mem_filter.mpr ⟨hm, by simp [Bool.eq_false_iff.mpr hc]⟩,
         rfl⟩)
    exact hasNote_of_mem did (formatNoteHtml m) hmem (formatNote_contains m)

/-- A name that does not start with a space is contained in itself when
searched for by its first token (the server-side filter accepts the
newly-created contact). -/
theorem firstName_server_self (name : List Char) :
    containsSub (jsLower name) (jsLower (firstNameOf name)) = true := by
  rw [firstNameOf]
  by_cases he : (firstTok name).isEmpty
  · rw [if_pos he]
    exact containsSub_refl _
  · rw [if_neg he]
    have h0 : containsSub
        (jsLower (List.takeWhile (fun x => decide (x ≠ ' ')) name) ++
         jsLower (List.dropWhile (fun x => decide (x ≠ ' ')) name))
        (jsLower (List.takeWhile (fun x => decide (x ≠ ' ')) name)) = true :=
      containsSub_self_append _ _
    rw [show jsLower (List.takeWhile (fun x => decide (x ≠ ' ')) name) ++
        jsLower (List.dropWhile (fun x => decide (x ≠ ' ')) name) =
        jsLower name from by
      rw [jsLower, jsLower, jsLower, ← List.map_append,
          List.takeWhile_append_dropWhile]] at h0
    exact h0

/-- A name that does not start with a space has its own first token as its
first-name query (the client-side filter accepts the newly-created
contact). -/
theorem firstName_client_self (name : List Char)
    (hname : name.head? ≠ some ' ') :
    jsLower (firstTok name) = jsLower (firstNameOf name) := by
  rw [firstNameOf]
  by_cases he : (firstTok name).isEmpty
  · rw [if_pos he]
    have hnil : name = [] := by
      cases name with
      | nil => rfl
      | cons c cs =>
        by_cases hc : c = ' '
        · exact absurd (show (c :: cs).head? = some ' ' from by
            rw [hc]; rfl) hname
        · exfalso
          have ht : firstTok (c :: cs) = c :: cs.takeWhile (· ≠ ' ') := by
            simp [firstTok, List.takeWhile_cons, hc]
          rw [ht] at he
          simp at he
    rw [hnil]
    rfl
  · rw [if_neg he]

/-- After creating the contact in a store where the search found nothing,
the same search finds exactly the created contact. -/
theorem find_person_after_create (A : List Person) (pid : Nat)
    (name : List Char) (hname : name.head? ≠ some ' ')
    (hnone : (A.filter (fun p =>
        containsSub (jsLower p.name) (jsLower (firstNameOf name)))).find?
        (fun p => jsLower (firstTok p.name) = jsLower (firstNameOf name)) =
        none) :
    ((A ++ [(⟨pid, name⟩ : Person)]).filter (fun p =>
        containsSub (jsLower p.name) (jsLower (firstNameOf name)))).find?
        (fun p => jsLower (firstTok p.name) = jsLower (firstNameOf name)) =
      some (⟨pid, name⟩ : Person) := by
  rw [List.filter_append, List.find?_append, hnone]
  have h1 := firstName_server_self name
  have h2 := firstName_client_self name hname
  simp [List.filter_cons, h1, h2]

/-- Store sanity: every deal's owner id and own id are below the id
counter. -/
def WFStore (st : RemoteState) : Prop :=
  ∀ d ∈ st.deals, d.personId < st.nextId ∧ d.id < st.nextId

/-- Splitting a deal listing at the first qualifying deal. -/
theorem scanDeals_cases (st : RemoteState) (ftext : List Char) :
    ∀ ds : List DealRec,
      (∀ d ∈ ds, (notesOf st d.id).any
        (fun n => containsSub n.content ftext) = false) ∨
      ∃ pre D post, ds = pre ++ D :: post ∧
        (∀ d ∈ pre, (notesOf st d.id).any
          (fun n => containsSub n.content ftext) = false) ∧
        (notesOf st D.id).any (fun n => containsSub n.content ftext) = true := by
  intro ds
  induction ds with
  | nil => left; simp
  | cons d es ih =>
    by_cases hd : (notesOf st d.id).any
        (fun n => containsSub n.content ftext) = true
    · right; exact ⟨[], d, es, rfl, by simp, hd⟩
    · rcases ih with hall | ⟨pre, D, post, heq, hpre, hD⟩
      · left
        intro e he
        rcases List.mem_cons.mp he with rfl | he'
        · exact Bool.eq_false_iff.mpr hd
        · exact hall e he'
      · right
        refine ⟨d :: pre, D, post, by rw [heq]; rfl, ?_, hD⟩
        intro e he
        rcases List.mem_cons.mp he with rfl | he'
        · exact Bool.eq_false_iff.mpr hd
        · exact hpre e he'

/-- C1: reconciliation is idempotent.  For every thread and every remote
state on which a run succeeds (the run having recorded every message of the
thread), running reconcile again on the resulting state adds zero new notes
and reports the same `dealId` and `personId`; the per-message dedup test is
the substring containment `containsSub note.content m.text` (`includes`),
not equality — this is what makes the second run recognize the formatted
notes of the first.  Requires a sane store (`WFStore`) and a contact name
without a leading space (as produced by the program's `trim`). -/
theorem C1_reconcile_idempotent (msgs : List Message) (cfgx : SenderCfg)
    (name url : List Char) (st : RemoteState) (r1 : RunResult)
    (hWF : WFStore st) (hname : name.head? ≠ some ' ')
    (hok : (reconcile msgs cfgx name url st).1 = Except.ok r1) :
    ∃ r2, (reconcile msgs cfgx name url
        (reconcile msgs cfgx name url st).2.1).1 = Except.ok r2 ∧
      r2.notesAdded = 0 ∧ r2.dealId = r1.dealId ∧
      r2.personId = r1.personId := by
  cases msgs with
  | nil =>
    rw [show (reconcile [] cfgx name url st).1 =
        Except.error RunError.emptyThread from rfl] at hok
    exact absurd hok (by simp)
  | cons m0 rest =>
    cases hkeys : resolveKeys st with
    | none =>
      rw [show reconcile (m0 :: rest) cfgx name url st =
          (Except.error RunError.configErr, st, [GOp.getDealFields]) from by
        rw [reconcile]; simp [hkeys]] at hok
      exact absurd hok (by simp)
    | some keys =>
      cases hfind : findPersonByFirstName st (firstNameOf name) with
      | some p =>
        rcases scanDeals_cases st m0.text (dealsOf st p.id) with
          hall | ⟨pre, D, post, hdeals, hpre, hD⟩
        · -- contact found, no owning deal: a deal is created
          rw [reconcile_created_some m0 rest cfgx name url st keys p hkeys
            hfind hall] at hok ⊢
          rw [Except.ok.injEq] at hok
          subst hok
          set Dn : DealRec := ⟨st.nextId, p.id, dealTitleOf cfgx name m0,
            keys.1, cfgx.sourceChannelOptionId,
            keys.2, cfgx.sourceCompanyOptionId⟩ with hDn
          set s1 : RemoteState := ⟨st.persons,
            st.deals ++ [Dn],
            st.notes ++ ⟨st.nextId, noteLinkOf url⟩ ::
              (m0 :: rest).map (fun m => ⟨st.nextId, formatNoteHtml m⟩),
            st.dealFields, st.nextId + 1⟩ with hs1
          have hkeys1 : resolveKeys s1 = some keys := hkeys
          have hfind1 : findPersonByFirstName s1 (firstNameOf name) =
              some p := hfind
          have hdeals1 : dealsOf s1 p.id = dealsOf st p.id ++ [Dn] := by
            show (st.deals ++ [Dn]).filter _ = _
            rw [List.filter_append]
            congr 1
            simp [List.filter_cons, hDn]
          have hnotes1 : notesOf s1 st.nextId =
              st.notes.filter (fun n => n.dealId = st.nextId) ++
                ⟨st.nextId, noteLinkOf url⟩ ::
                (m0 :: rest).map (fun m => ⟨st.nextId, formatNoteHtml m⟩) := by
            show (st.notes ++ _).filter _ = _
            rw [List.filter_append, filter_notes_same]
          have hcont : ∀ m ∈ (m0 :: rest),
              hasNote (notesOf s1 st.nextId) m = true := by
            intro m hm
            have hmem : (⟨st.nextId, formatNoteHtml m⟩ : NoteRec) ∈
                notesOf s1 st.nextId := by
              rw [hnotes1]
              exact List.mem_append_right _ (List.mem_cons_of_mem _
                (List.mem_map.mpr ⟨m, hm, rfl⟩))
            exact hasNote_of_mem st.nextId (formatNoteHtml m) hmem
              (formatNote_contains m)
          have hpre1 : ∀ d ∈ dealsOf st p.id,
              (notesOf s1 d.id).any
                (fun n => containsSub n.content m0.text) = false := by
            intro d hd
            have hdmem : d ∈ st.deals := List.mem_filter.mp hd |>.1
            have hid : d.id ≠ st.nextId := by
              have := (hWF d hdmem).2
              omega
            have : notesOf s1 d.id = notesOf st d.id := by
              show (st.notes ++ _).filter _ = _
              rw [List.filter_append]
              rw [show (⟨st.nextId, noteLinkOf url⟩ ::
                  (m0 :: rest).map (fun m =>
                    (⟨st.nextId, formatNoteHtml m⟩ : NoteRec))).filter
                  (fun n => n.dealId = d.id) = [] from
                List.filter_eq_nil_iff.mpr (by
                  intro n hn
                  rcases List.mem_cons.mp hn with rfl | hn'
                  · simp [Ne.symm hid]
                  · rcases List.mem_map.mp hn' with ⟨m, _, rfl⟩
                    simp [Ne.symm hid])]
              simp [notesOf]
            rw [this]
            exact hall d hd
          have hD1 : (notesOf s1 Dn.id).any
              (fun n => containsSub n.content m0.text) = true :=
            hcont m0 (List.mem_cons_self m0 rest)
          rw [reconcile_synced m0 rest cfgx name url s1 keys p
            (dealsOf st p.id) [] Dn hkeys1 hfind1 hdeals1 hpre1 hD1]
          refine ⟨_, rfl, ?_, rfl, rfl⟩
          show ((m0 :: rest).filter _).length = 0
          rw [sync_filter_nil hcont]
          rfl
        · -- contact found, owning deal found: pure sync
          rw [reconcile_synced m0 rest cfgx name url st keys p pre post D
            hkeys hfind hdeals hpre hD] at hok ⊢
          rw [Except.ok.injEq] at hok
          subst hok
          set added : List NoteRec := ((m0 :: rest).filter
            (fun m => !(hasNote (notesOf st D.id) m))).map
            (fun m => ⟨D.id, formatNoteHtml m⟩) with hadded
          set s1 : RemoteState := ⟨st.persons, st.deals,
            st.notes ++ added, st.dealFields, st.nextId⟩ with hs1
          have hkeys1 : resolveKeys s1 = some keys := hkeys
          have hfind1 : findPersonByFirstName s1 (firstNameOf name) =
              some p := hfind
          have hdeals1 : dealsOf s1 p.id = pre ++ D :: post := hdeals
          have hnotesD : notesOf s1 D.id = notesOf st D.id ++ added := by
            show (st.notes ++ added).filter _ = _
            rw [List.filter_append, hadded, filter_map_same_deal]
            rfl
          have hcont : ∀ m ∈ (m0 :: rest),
              hasNote (notesOf s1 D.id) m = true := by
            rw [hnotesD, hadded]
            exact all_contained_after_sync (notesOf st D.id) D.id (m0 :: rest)
          have hpre1 : ∀ d ∈ pre,
              (notesOf s1 d.id).any
                (fun n => containsSub n.content m0.text) = false := by
            intro d hd
            have hid : d.id ≠ D.id := by
              intro heq
              have h1 := hpre d hd
              rw [show notesOf st d.id = notesOf st D.id from by
                rw [heq]] at h1
              rw [h1] at hD
              exact absurd hD (by simp)
            have : notesOf s1 d.id = notesOf st d.id := by
              show (st.notes ++ added).filter _ = _
              rw [List.filter_append, hadded,
                show (((m0 :: rest).filter
                    (fun m => !(hasNote (notesOf st D.id) m))).map
                    (fun m => (⟨D.id, formatNoteHtml m⟩ : NoteRec))).filter
                    (fun n => n.dealId = d.id) = [] from
                  List.filter_eq_nil_iff.mpr (by
                    intro n hn
                    rcases List.mem_map.mp hn with ⟨m, _, rfl⟩
                    simp [Ne.symm hid])]
              simp [notesOf]
            rw [this]
            exact hpre d hd
          have hD1 : (notesOf s1 D.id).any
              (fun n => containsSub n.content m0.text) = true :=
            hcont m0 (List.mem_cons_self m0 rest)
          rw [reconcile_synced m0 rest cfgx name url s1 keys p pre post D
            hkeys1 hfind1 hdeals1 hpre1 hD1]
          refine ⟨_, rfl, ?_, rfl, rfl⟩
          show ((m0 :: rest).filter _).length = 0
          rw [sync_filter_nil hcont]
          rfl
      | none =>
        -- no contact: person and deal are created
        rw [reconcile_created_none m0 rest cfgx name url st keys hkeys
          hfind] at hok ⊢
        rw [Except.ok.injEq] at hok
        subst hok
        set P : Person := ⟨st.nextId, name⟩ with hP
        set Dn : DealRec := ⟨st.nextId + 1, st.nextId,
          dealTitleOf cfgx name m0, keys.1, cfgx.sourceChannelOptionId,
          keys.2, cfgx.sourceCompanyOptionId⟩ with hDn
        set s1 : RemoteState := ⟨st.persons ++ [P],
          st.deals ++ [Dn],
          st.notes ++ ⟨st.nextId + 1, noteLinkOf url⟩ ::
            (m0 :: rest).map (fun m => ⟨st.nextId + 1, formatNoteHtml m⟩),
          st.dealFields, st.nextId + 2⟩ with hs1
        have hkeys1 : resolveKeys s1 = some keys := hkeys
        have hfind1 : findPersonByFirstName s1 (firstNameOf name) =
            some P :=
          find_person_after_create st.persons st.nextId name hname hfind
        have hdeals1 : dealsOf s1 P.id = [] ++ Dn :: [] := by
          show (st.deals ++ [Dn]).filter _ = _
          rw [List.filter_append]
          rw [show st.deals.filter (fun d => d.personId = P.id) = [] from
            List.filter_eq_nil_iff.mpr (by
              intro d hd
              have := (hWF d hd).1
              simp only [decide_eq_true_eq, hP]
              omega)]
          simp [List.filter_cons, hDn, hP]
        have hnotes1 : notesOf s1 Dn.id =
            st.notes.filter (fun n => n.dealId = (st.nextId + 1)) ++
              ⟨st.nextId + 1, noteLinkOf url⟩ ::
              (m0 :: rest).map (fun m => ⟨st.nextId + 1, formatNoteHtml m⟩) := by
          show (st.notes ++ _).filter _ = _
          rw [List.filter_append, filter_notes_same]
        have hcont : ∀ m ∈ (m0 :: rest),
            hasNote (notesOf s1 Dn.id) m = true := by
          intro m hm
          have hmem : (⟨st.nextId + 1, formatNoteHtml m⟩ : NoteRec) ∈
              notesOf s1 Dn.id := by
            rw [hnotes1]
            exact List.mem_append_right _ (List.mem_cons_of_mem _
              (List.mem_map.mpr ⟨m, hm, rfl⟩))
          exact hasNote_of_mem (st.nextId + 1) (formatNoteHtml m) hmem
            (formatNote_contains m)
        have hD1 : (notesOf s1 Dn.id).any
            (fun n => containsSub n.content m0.text) = true :=
          hcont m0 (List.mem_cons_self m0 rest)
        rw [reconcile_synced m0 rest cfgx name url s1 keys P [] [] Dn
          hkeys1 hfind1 hdeals1 (by simp) hD1]
        refine ⟨_, rfl, ?_, rfl, rfl⟩
        show ((m0 :: rest).filter _).length = 0
        rw [sync_filter_nil hcont]
        rfl

/-- Witness for C1: reconciling a one-message thread twice against the empty
store — the first run creates person 100 and deal 101 with two notes, the
second adds nothing and reports the same ids. -/
theorem C1_reconcile_idempotent_witness :
    ∃ r2, (reconcile [c7m3] ⟨70, 47, S "T"⟩ (S "Ilze") (S "u")
        (reconcile [c7m3] ⟨70, 47, S "T"⟩ (S "Ilze") (S "u") c7St).2.1).1 =
        Except.ok r2 ∧
      r2.notesAdded = 0 ∧
      r2.dealId = (⟨100, 101, 1, Action.created_new_deal⟩ : RunResult).dealId ∧
      r2.personId =
        (⟨100, 101, 1, Action.created_new_deal⟩ : RunResult).personId :=
  C1_reconcile_idempotent [c7m3] ⟨70, 47, S "T"⟩ (S "Ilze") (S "u") c7St
    ⟨100, 101, 1, Action.created_new_deal⟩
    (by intro d hd; simp [c7St] at hd) (by decide) (by rfl)

end Cartom
